import Mathlib

/-! Verification of the deal.II `Triangulation` specification.

This file gives a shallow embedding of the hierarchical adaptive-mesh
(`Triangulation`) layer of the deal.II library, as visible in
`include/deal.II/grid/tria.h` and `include/deal.II/grid/grid_generator.h`,
and settles a list of claims about it.

The repository snapshot contains the class header (documentation plus
declarations, and the inline `save`/`load` template bodies) but not the
implementation file `tria.cc`.  Consequently:

* the `MeshSmoothing` bit constants and the `save`/`load` serialization
  routines are translated directly from the header source;
* the refinement/coarsening algorithms (`prepare_coarsening_and_refinement`,
  `fix_coarsen_flags`, `execute_coarsening_and_refinement`, the smoothing
  steps, `GridGenerator::hyper_cube`) are modelled from the specification and
  from the extensive algorithm documentation in the header (regularization,
  smoothing, coarsening eligibility, flag clearing, id inheritance).

The mesh model is the two-dimensional case: a hierarchical quadtree of cells
over a square coarse cell, exactly the structure produced by
`GridGenerator::hyper_cube` followed by refinement cycles.  A cell at level
`l` with integer coordinates `(x, y)` occupies the dyadic square
`[x/2^l, (x+1)/2^l] × [y/2^l, (y+1)/2^l]` of the coarse cell.
-/

/-- The `MeshSmoothing` value `none = 0x0`, taken verbatim from the enum in
the header. -/
def MeshSmoothing.none : Nat := 0x0

/-- `limit_level_difference_at_vertices = 0x1` (header enum). -/
def limit_level_difference_at_vertices : Nat := 0x1

/-- `eliminate_unrefined_islands = 0x2` (header enum). -/
def eliminate_unrefined_islands : Nat := 0x2

/-- `patch_level_1 = 0x4` (header enum). -/
def patch_level_1 : Nat := 0x4

/-- `coarsest_level_1 = 0x8` (header enum). -/
def coarsest_level_1 : Nat := 0x8

/-- `allow_anisotropic_smoothing = 0x10` (header enum). -/
def allow_anisotropic_smoothing : Nat := 0x10

/-- `eliminate_refined_inner_islands = 0x100` (header enum). -/
def eliminate_refined_inner_islands : Nat := 0x100

/-- `eliminate_refined_boundary_islands = 0x200` (header enum). -/
def eliminate_refined_boundary_islands : Nat := 0x200

/-- `do_not_produce_unrefined_islands = 0x400` (header enum). -/
def do_not_produce_unrefined_islands : Nat := 0x400

/-- `smoothing_on_refinement = (limit_level_difference_at_vertices |
eliminate_unrefined_islands)` (header enum). -/
def smoothing_on_refinement : Nat :=
  limit_level_difference_at_vertices ||| eliminate_unrefined_islands

/-- `smoothing_on_coarsening = (eliminate_refined_inner_islands |
eliminate_refined_boundary_islands | do_not_produce_unrefined_islands)`
(header enum). -/
def smoothing_on_coarsening : Nat :=
  eliminate_refined_inner_islands ||| eliminate_refined_boundary_islands |||
    do_not_produce_unrefined_islands

/-- `maximum_smoothing = 0xffff ^ allow_anisotropic_smoothing` (header enum). -/
def maximum_smoothing : Nat := 0xffff ^^^ allow_anisotropic_smoothing

/-- The reserved boundary id `numbers::internal_face_boundary_id` marking
"interior, not on the boundary".  The header documents it as the largest
representable `boundary_id` value; the exact numeral is irrelevant to the
claims, only that it is the designated sentinel. -/
def internal_face_boundary_id : Nat := 4294967295

/-- Per-cell data carried by a cell: the material id and the two user-settable
flags.  (Boundary ids live on faces/edges, not on cells.) -/
structure CellInfo where
  materialId : Nat
  refineFlag : Bool
  coarsenFlag : Bool
deriving DecidableEq

/-- Modelled from the spec: the hierarchical cell storage of a 2D
`Triangulation` over one coarse cell (the structure `GridGenerator::hyper_cube`
plus refinement cycles produce).  A mesh object is either an active leaf or
has exactly `2^structdim = 4` children ("never mixed", spec §3); refined
(inactive) cells retain their data so that coarsening can revert them. -/
inductive QT where
  | leaf (info : CellInfo)
  | node (info : CellInfo) (a b c d : QT)
deriving DecidableEq

/-- An active cell together with its level and dyadic coordinates: it covers
the square `[x/2^l,(x+1)/2^l] × [y/2^l,(y+1)/2^l]` of the coarse cell. -/
structure ACell where
  lvl : Nat
  x : Nat
  y : Nat
  info : CellInfo
deriving DecidableEq

/-- The active cells (leaves) of a subtree whose root sits at level `l` and
coordinates `(x, y)`.  Children are enumerated in lexicographic order. -/
def active_cells : QT → Nat → Nat → Nat → List ACell
  | .leaf i, l, x, y => [⟨l, x, y, i⟩]
  | .node _ a b c d, l, x, y =>
      active_cells a (l + 1) (2 * x) (2 * y) ++
        active_cells b (l + 1) (2 * x + 1) (2 * y) ++
          active_cells c (l + 1) (2 * x) (2 * y + 1) ++
            active_cells d (l + 1) (2 * x + 1) (2 * y + 1)

/-- The active cells of a whole triangulation (root at level 0). -/
def acells (t : QT) : List ACell := active_cells t 0 0 0

/-- The depth of the hierarchy below a cell; a triangulation with root depth
`d` has `d + 1` levels (levels `0 … d`). -/
def depthQ : QT → Nat
  | .leaf _ => 0
  | .node _ a b c d =>
      1 + max (max (depthQ a) (depthQ b)) (max (depthQ c) (depthQ d))

/-- The number of refinement levels of the triangulation. -/
def n_levels (t : QT) : Nat := depthQ t + 1

/-- Apply a (position-aware) transformation to the data of every active cell,
leaving the tree structure unchanged.  All flag-setting passes of
`prepare_coarsening_and_refinement` are instances of this. -/
def map_active (f : Nat → Nat → Nat → CellInfo → CellInfo) :
    QT → Nat → Nat → Nat → QT
  | .leaf i, l, x, y => .leaf (f l x y i)
  | .node i a b c d, l, x, y =>
      .node i (map_active f a (l + 1) (2 * x) (2 * y))
        (map_active f b (l + 1) (2 * x + 1) (2 * y))
          (map_active f c (l + 1) (2 * x) (2 * y + 1))
            (map_active f d (l + 1) (2 * x + 1) (2 * y + 1))

/-! ## Dyadic geometry

A cell at level `l`, coordinates `(x, y)` covers the closed square
`[x/2^l,(x+1)/2^l] × [y/2^l,(y+1)/2^l]`.  Intersection tests between two such
squares are expressed scale-freely by cross-multiplying with the other
interval's denominator. -/

/-- The closed dyadic intervals `[x₁/2^l₁,(x₁+1)/2^l₁]` and
`[x₂/2^l₂,(x₂+1)/2^l₂]` intersect. -/
def ivT (l₁ x₁ l₂ x₂ : Nat) : Prop :=
  x₁ * 2 ^ l₂ ≤ (x₂ + 1) * 2 ^ l₁ ∧ x₂ * 2 ^ l₁ ≤ (x₁ + 1) * 2 ^ l₂

/-- The open dyadic intervals overlap (a one-dimensional overlap, not a mere
endpoint touch). -/
def ivO (l₁ x₁ l₂ x₂ : Nat) : Prop :=
  x₁ * 2 ^ l₂ < (x₂ + 1) * 2 ^ l₁ ∧ x₂ * 2 ^ l₁ < (x₁ + 1) * 2 ^ l₂

instance (l₁ x₁ l₂ x₂ : Nat) : Decidable (ivT l₁ x₁ l₂ x₂) := by
  unfold ivT; infer_instance

instance (l₁ x₁ l₂ x₂ : Nat) : Decidable (ivO l₁ x₁ l₂ x₂) := by
  unfold ivO; infer_instance

/-- The position of a cell: level plus dyadic coordinates. -/
structure Sq where
  lvl : Nat
  x : Nat
  y : Nat
deriving DecidableEq

/-- The position of an active cell. -/
def ACell.sq (c : ACell) : Sq := ⟨c.lvl, c.x, c.y⟩

/-- Child `(i, j)` of a position (for `i, j ∈ {0, 1}`). -/
def Sq.child (p : Sq) (i j : Nat) : Sq := ⟨p.lvl + 1, 2 * p.x + i, 2 * p.y + j⟩

/-- The closed squares of two positions intersect: the cells share at least a
vertex (possibly an edge piece or more). -/
def sqT (p q : Sq) : Prop := ivT p.lvl p.x q.lvl q.x ∧ ivT p.lvl p.y q.lvl q.y

/-- The closed squares of two positions share (at least) a one-dimensional
piece of an edge: they intersect, and not merely in a single point. -/
def sqF (p q : Sq) : Prop :=
  sqT p q ∧ (ivO p.lvl p.x q.lvl q.x ∨ ivO p.lvl p.y q.lvl q.y)

instance (p q : Sq) : Decidable (sqT p q) := by unfold sqT; infer_instance

instance (p q : Sq) : Decidable (sqF p q) := by unfold sqF; infer_instance

/-- The square of position `q` is contained in the square of position `p`. -/
def sqSub (q p : Sq) : Prop :=
  p.x * 2 ^ q.lvl ≤ q.x * 2 ^ p.lvl ∧ (q.x + 1) * 2 ^ p.lvl ≤ (p.x + 1) * 2 ^ q.lvl ∧
    p.y * 2 ^ q.lvl ≤ q.y * 2 ^ p.lvl ∧ (q.y + 1) * 2 ^ p.lvl ≤ (p.y + 1) * 2 ^ q.lvl

instance (q p : Sq) : Decidable (sqSub q p) := by unfold sqSub; infer_instance

/-! ## The refinement / coarsening machinery

Except where noted otherwise, the following functions are modelled from the
spec and from the algorithm documentation in the class header: the bodies of
`prepare_coarsening_and_refinement`, `fix_coarsen_flags`,
`execute_coarsening`, `execute_refinement` and
`execute_coarsening_and_refinement` live in `tria.cc`, which is not part of
the repository snapshot. -/

/-- Effective refinement level of an active cell: its level, plus one if it is
flagged for refinement (the level its finest descendants will have after the
flags are executed). -/
def eff (c : ACell) : Nat := c.lvl + (if c.info.refineFlag then 1 else 0)

/-- Whether the smoothing bitmask contains one of the given bits (the
`smooth_grid & …` tests of the source). -/
def hasSmoothing (s bits : Nat) : Bool := s &&& bits != 0

/-- The adjacency relation along which refinement flags must propagate:
cells sharing a piece of a face always (one-irregularity of faces); cells
sharing merely a vertex only when `limit_level_difference_at_vertices`
smoothing is selected. -/
def relA (s : Nat) (p q : Sq) : Prop :=
  sqF p q ∨ (hasSmoothing s limit_level_difference_at_vertices = true ∧ sqT p q)

instance (s : Nat) (p q : Sq) : Decidable (relA s p q) := by
  unfold relA; infer_instance

/-- Modelled from the spec: a cell is a "victim" of the regularization /
smoothing rules if some neighboring cell's effective level would exceed its
own level by two or more, in which case it must be flagged for refinement as
well ("if a neighbor of the present cell is refined once less than the present
one, flag the neighbor for refinement", header §regularization). -/
def victimB (s : Nat) (A : List ACell) (c : ACell) : Bool :=
  A.any fun d => decide (relA s c.sq d.sq) && decide (c.lvl + 2 ≤ eff d)

/-- Modelled from the spec: one regularization/smoothing sweep — every victim
cell additionally receives the refine flag. -/
def regularize (s : Nat) (t : QT) : QT :=
  let A := acells t
  map_active
    (fun l x y i => { i with refineFlag := i.refineFlag || victimB s A ⟨l, x, y, i⟩ })
    t 0 0 0

/-- Modelled from the spec: coarsening away the children of the cell at
position `p` keeps the mesh one-irregular, also accounting for neighbors that
are about to be refined: every active cell touching the closed square of `p`
has effective level at most `p.lvl + 1` ("the group satisfies the
level-difference invariant post-removal", spec §4.3). -/
def effCheckB (A : List ACell) (p : Sq) : Bool :=
  A.all fun q => !(decide (sqT q.sq p)) || decide (eff q ≤ p.lvl + 1)

/-- The four children of position `p` are all present as active cells, all
carry the coarsen flag, and none carries a refine flag ("all children are
flagged for coarsening" with refinement winning conflicts, spec §4.3). -/
def siblingsFlaggedB (A : List ACell) (p : Sq) : Bool :=
  (List.range 2).all fun i =>
    (List.range 2).all fun j =>
      A.any fun m =>
        decide (m.sq = p.child i j) && m.info.coarsenFlag && !m.info.refineFlag

/-- A sibling group is eligible for coarsening. -/
def groupEligibleB (A : List ACell) (p : Sq) : Bool :=
  siblingsFlaggedB A p && effCheckB A p

/-- An active cell may keep its coarsen flag: it is not a coarse (level-0)
cell and its whole sibling group is eligible for coarsening. -/
def keepCoarsenB (A : List ACell) (c : ACell) : Bool :=
  decide (0 < c.lvl) && groupEligibleB A ⟨c.lvl - 1, c.x / 2, c.y / 2⟩

/-- Modelled from the spec: `fix_coarsen_flags` — "make sure that either all
or none of the children of a cell are tagged for coarsening" (header), also
"deleting coarsen flags from cells which may not be deleted (e.g. because one
neighbor is more refined than the cell)" and resolving refine+coarsen
conflicts in favor of refinement (spec §4.3, §7): coarsen flags not belonging
to an eligible sibling group are cleared. -/
def fix_coarsen_flags (t : QT) : QT :=
  let A := acells t
  map_active
    (fun l x y i =>
      { i with coarsenFlag := i.coarsenFlag && keepCoarsenB A ⟨l, x, y, i⟩ })
    t 0 0 0

/-- Whether the cell `e` touches side `k` of the cell at position `p` in more
than a point: `k = 0,1,2,3` is the left, right, bottom, top side; `e` sits on
the other side of that face and the lateral extents overlap in an open
interval (scale-free, cross-multiplied dyadic arithmetic). -/
def touchSideB (k : Nat) (p e : Sq) : Bool :=
  match k with
  | 0 => decide ((e.x + 1) * 2 ^ p.lvl = p.x * 2 ^ e.lvl) &&
      decide (ivO e.lvl e.y p.lvl p.y)
  | 1 => decide (e.x * 2 ^ p.lvl = (p.x + 1) * 2 ^ e.lvl) &&
      decide (ivO e.lvl e.y p.lvl p.y)
  | 2 => decide ((e.y + 1) * 2 ^ p.lvl = p.y * 2 ^ e.lvl) &&
      decide (ivO e.lvl e.x p.lvl p.x)
  | _ => decide (e.y * 2 ^ p.lvl = (p.y + 1) * 2 ^ e.lvl) &&
      decide (ivO e.lvl e.x p.lvl p.x)

/-- Side `k` of the cell at position `p` lies on the boundary of the unit
square domain (such faces are "not accounted for at all" by the island
counting, header doc of `eliminate_unrefined_islands`). -/
def sideBoundaryB (k : Nat) (p : Sq) : Bool :=
  match k with
  | 0 => decide (p.x = 0)
  | 1 => decide (p.x + 1 = 2 ^ p.lvl)
  | 2 => decide (p.y = 0)
  | _ => decide (p.y + 1 = 2 ^ p.lvl)

/-- Side `k` of `p` counts as refined-or-to-be-refined: some active cell
touching that side is finer than `p` or carries the refine flag ("Cells which
are not yet refined but flagged for that are accounted for the number of
refined neighbors", header). -/
def sideRefinedB (A : List ACell) (k : Nat) (p : Sq) : Bool :=
  A.any fun e => touchSideB k p e.sq && (decide (p.lvl < e.lvl) || e.info.refineFlag)

/-- Modelled from the spec: the neighbor-majority test of
`eliminate_unrefined_islands` (and of `do_not_produce_unrefined_islands`):
among the sides of `p` not on the domain boundary, the refined-or-flagged
ones outnumber the others. -/
def majorityRefinedB (A : List ACell) (p : Sq) : Bool :=
  decide (((List.range 4).filter fun k =>
      !sideBoundaryB k p && sideRefinedB A k p).length >
    ((List.range 4).filter fun k =>
      !sideBoundaryB k p && !sideRefinedB A k p).length)

/-- Modelled from the spec: one sweep of the `eliminate_unrefined_islands`
smoothing — every active cell surrounded by strictly more refined-or-flagged
sides than unrefined ones receives the refine flag; this "may lead to cells
on the same level which also will need refinement", hence its place inside
the iterated loop (header).  It is skipped when `patch_level_1` is selected
(header: the islands flags "will be ignored as they will be fulfilled
automatically"). -/
def unref_islands_step (s : Nat) (t : QT) : QT :=
  let A := acells t
  map_active (fun l x y i =>
    { i with refineFlag := i.refineFlag ||
        (hasSmoothing s eliminate_unrefined_islands &&
          !hasSmoothing s patch_level_1 && majorityRefinedB A ⟨l, x, y⟩) }) t 0 0 0

/-- The cell at position `p` has a sibling that is refined further or flagged
for refinement ("if at least one of the children of a cell is or will be
refined than all children need to be refined", header doc of
`patch_level_1`). -/
def siblingRefinedB (A : List ACell) (p : Sq) : Bool :=
  decide (0 < p.lvl) && A.any fun e =>
    decide (sqSub e.sq ⟨p.lvl - 1, p.x / 2, p.y / 2⟩) &&
      (decide (p.lvl < e.lvl) || (e.info.refineFlag && decide (¬e.sq = p)))

/-- Modelled from the spec: one sweep of the `patch_level_1` smoothing —
whenever a sibling is or will be refined, the whole sibling group is flagged
for refinement. -/
def patch_step (s : Nat) (t : QT) : QT :=
  let A := acells t
  map_active (fun l x y i =>
    { i with refineFlag := i.refineFlag ||
        (hasSmoothing s patch_level_1 && siblingRefinedB A ⟨l, x, y⟩) }) t 0 0 0

/-- Modelled from the spec: the `coarsest_level_1` constraint — "active cells
on level 1 may not be coarsened" (header), one sweep removing the coarsen
flags of level-1 cells. -/
def coarsest_step (s : Nat) (t : QT) : QT :=
  map_active (fun l _ _ i =>
    { i with coarsenFlag := i.coarsenFlag &&
        !(hasSmoothing s coarsest_level_1 && decide (l = 1)) }) t 0 0 0

/-- Modelled from the spec: the `do_not_produce_unrefined_islands` smoothing —
"prohibits the coarsening of a cell if most of the neighbors will be refined
after the step" (header): the coarsen flag is removed wherever the
refined-or-flagged sides are in the majority. -/
def dnpui_step (s : Nat) (t : QT) : QT :=
  let A := acells t
  map_active (fun l x y i =>
    { i with coarsenFlag := i.coarsenFlag &&
        !(hasSmoothing s do_not_produce_unrefined_islands &&
          majorityRefinedB A ⟨l, x, y⟩) }) t 0 0 0

/-- One full pass of the iterative regularization+smoothing loop of
`prepare_coarsening_and_refinement` (spec §4.3): the flag-propagation sweep
(which also realizes `limit_level_difference_at_vertices` through the
propagation relation), the `eliminate_unrefined_islands` sweep, the
`patch_level_1` and `coarsest_level_1` sweeps, the
`do_not_produce_unrefined_islands` sweep, and `fix_coarsen_flags`; the
sequence "repeats until no cell's flag set changes in a full pass". -/
def smoothing_pass (s : Nat) (t : QT) : QT :=
  fix_coarsen_flags (dnpui_step s (coarsest_step s
    (patch_step s (unref_islands_step s (regularize s t)))))

/-- The position lies at the boundary of the (unit square) domain. -/
def atBoundaryB (p : Sq) : Bool :=
  decide (p.x = 0) || decide (p.x + 1 = 2 ^ p.lvl) ||
    decide (p.y = 0) || decide (p.y + 1 = 2 ^ p.lvl)

/-- The neighbors of the cell at position `p` are "quiet": every active cell
sharing an edge piece with `p`, other than cells inside `p` itself, carries no
refine flag ("the number of neighbors which are either active and not flagged
for refinement … equals the total number of neighbors", header doc of
`eliminate_refined_*_islands`). -/
def quietB (A : List ACell) (p : Sq) : Bool :=
  A.all fun e =>
    decide (sqSub e.sq p) || !(decide (sqF e.sq p)) || !e.info.refineFlag

/-- Whether the refined-island elimination applies to a cell at position `p`:
the inner variant to interior cells, the boundary variant to cells at the
domain boundary. -/
def islandAppliesB (s : Nat) (p : Sq) : Bool :=
  (hasSmoothing s eliminate_refined_inner_islands && !atBoundaryB p) ||
    (hasSmoothing s eliminate_refined_boundary_islands && atBoundaryB p)

/-- Set the coarsen flag of a leaf (used on the active children of a refined
island). -/
def setCoarsenLeaf : QT → QT
  | .leaf i => .leaf { i with coarsenFlag := true }
  | t => t

/-- The four subtrees are all leaves (the cell's children are all active). -/
def allLeavesB : QT → QT → QT → QT → Bool
  | .leaf _, .leaf _, .leaf _, .leaf _ => true
  | _, _, _, _ => false

/-- Modelled from the spec: the `eliminate_refined_inner_islands` /
`eliminate_refined_boundary_islands` smoothing step (header doc): if a cell is
flagged for refinement, or all of its children are active, and all of its
neighbors are quiet, then its children are flagged for coarsening, or — if the
cell was merely flagged for refinement — the refine flag is cleared.  Per the
header ("only one loop of flagging cells like this could be done" to avoid
chain reactions) this step runs once, before the iterative loop. -/
def island_go (s : Nat) (A : List ACell) : QT → Nat → Nat → Nat → QT
  | .leaf i, l, x, y =>
      if i.refineFlag && islandAppliesB s ⟨l, x, y⟩ && quietB A ⟨l, x, y⟩ then
        .leaf { i with refineFlag := false }
      else .leaf i
  | .node i a b c d, l, x, y =>
      if allLeavesB a b c d && islandAppliesB s ⟨l, x, y⟩ && quietB A ⟨l, x, y⟩ then
        .node i (setCoarsenLeaf a) (setCoarsenLeaf b) (setCoarsenLeaf c)
          (setCoarsenLeaf d)
      else
        .node i (island_go s A a (l + 1) (2 * x) (2 * y))
          (island_go s A b (l + 1) (2 * x + 1) (2 * y))
            (island_go s A c (l + 1) (2 * x) (2 * y + 1))
              (island_go s A d (l + 1) (2 * x + 1) (2 * y + 1))

/-- The one-shot refined-island elimination step. -/
def eliminate_refined_islands (s : Nat) (t : QT) : QT :=
  island_go s (acells t) t 0 0 0

/-- Twice the number of active cells: an upper bound on the number of flag
changes the monotone smoothing loop can still perform (each pass only adds
refine flags and removes coarsen flags), and hence on the number of passes
needed to reach the fixed point. -/
def n_flag_changes (t : QT) : Nat := 2 * (acells t).length

/-- Modelled from the spec: `prepare_coarsening_and_refinement` —
regularization and smoothing, iterated until no cell's flag set changes in a
full pass; the fixed point is reached within `n_flag_changes` passes because
every pass moves the flag measure strictly down (spec §4.3). -/
def prepare_coarsening_and_refinement (s : Nat) (t : QT) : QT :=
  (smoothing_pass s)^[n_flag_changes t] (eliminate_refined_islands s t)

/-- The structural coarsening condition for a node at position `p` whose
children are the four given subtrees: all children are active (leaves), all
carry the coarsen flag, none carries a refine flag, and removal keeps the mesh
one-irregular (spec §4.3, step "execute_coarsening"). -/
def coarsenGroupB (A : List ACell) (p : Sq) : QT → QT → QT → QT → Bool
  | .leaf ia, .leaf ib, .leaf ic, .leaf idd =>
      ia.coarsenFlag && !ia.refineFlag && ib.coarsenFlag && !ib.refineFlag &&
        ic.coarsenFlag && !ic.refineFlag && idd.coarsenFlag && !idd.refineFlag &&
          effCheckB A p
  | _, _, _, _ => false

/-- Modelled from the spec: `execute_coarsening` — for every sibling group
where all siblings carry the coarsen flag and the group satisfies the
level-difference invariant post-removal, delete the children (the parent
becomes active again, with no flags). -/
def execute_coarsening_go (A : List ACell) : QT → Nat → Nat → Nat → QT
  | .leaf i, _, _, _ => .leaf i
  | .node i a b c d, l, x, y =>
      if coarsenGroupB A ⟨l, x, y⟩ a b c d then
        .leaf { i with refineFlag := false, coarsenFlag := false }
      else
        .node i (execute_coarsening_go A a (l + 1) (2 * x) (2 * y))
          (execute_coarsening_go A b (l + 1) (2 * x + 1) (2 * y))
            (execute_coarsening_go A c (l + 1) (2 * x) (2 * y + 1))
              (execute_coarsening_go A d (l + 1) (2 * x + 1) (2 * y + 1))

/-- `execute_coarsening` on a whole triangulation. -/
def execute_coarsening (t : QT) : QT :=
  execute_coarsening_go (acells t) t 0 0 0

/-- The data of a newly created child cell: the material id is inherited from
the parent unconditionally (header: "material ids are inherited by child cells
from their parent upon mesh refinement"), flags start cleared. -/
def childInfo (i : CellInfo) : CellInfo := ⟨i.materialId, false, false⟩

/-- Modelled from the spec: `execute_refinement` — every active cell flagged
for refinement is replaced by four children inheriting its material id. -/
def execute_refinement : QT → QT
  | .leaf i =>
      if i.refineFlag then
        .node { i with refineFlag := false, coarsenFlag := false }
          (.leaf (childInfo i)) (.leaf (childInfo i))
            (.leaf (childInfo i)) (.leaf (childInfo i))
      else .leaf i
  | .node i a b c d =>
      .node i (execute_refinement a) (execute_refinement b)
        (execute_refinement c) (execute_refinement d)

/-- `execute_coarsening_and_refinement` "resets all refinement and coarsening
flags to false" (header): the final flag sweep. -/
def clear_all_flags (t : QT) : QT :=
  map_active (fun _ _ _ i => { i with refineFlag := false, coarsenFlag := false })
    t 0 0 0

/-- Modelled from the spec: `execute_coarsening_and_refinement` — prepare
(regularization + smoothing), then coarsening, then refinement, then reset of
all flags (spec §4.3). -/
def execute_coarsening_and_refinement (s : Nat) (t : QT) : QT :=
  clear_all_flags
    (execute_refinement (execute_coarsening (prepare_coarsening_and_refinement s t)))

/-! ## Balance predicates and the termination measure -/

/-- The list of active cells is one-irregular with respect to an adjacency
relation on positions: the levels of related cells differ by at most one. -/
def lvl_balanced (r : Sq → Sq → Prop) (L : List ACell) : Prop :=
  ∀ c ∈ L, ∀ d ∈ L, r c.sq d.sq → c.lvl ≤ d.lvl + 1

/-- Face version of the one-irregular invariant: active cells sharing a piece
of an edge (a face in 2D) have levels differing by at most one. -/
def face_balanced (t : QT) : Prop := lvl_balanced sqF (acells t)

/-- Vertex version of the one-irregular invariant: active cells sharing even
only a vertex have levels differing by at most one. -/
def vertex_balanced (t : QT) : Prop := lvl_balanced sqT (acells t)

instance (r : Sq → Sq → Prop) [DecidableRel r] (L : List ACell) :
    Decidable (lvl_balanced r L) := by unfold lvl_balanced; infer_instance

instance (t : QT) : Decidable (face_balanced t) := by
  unfold face_balanced lvl_balanced; infer_instance

instance (t : QT) : Decidable (vertex_balanced t) := by
  unfold vertex_balanced lvl_balanced; infer_instance

/-- One-irregularity of the effective levels. -/
def eff_balanced (r : Sq → Sq → Prop) (L : List ACell) : Prop :=
  ∀ c ∈ L, ∀ d ∈ L, r c.sq d.sq → eff c ≤ eff d + 1

/-- The termination measure of the smoothing loop: the number of refine flags
still absent plus the number of coarsen flags still present.  Every sweep of
the loop only adds refine flags and removes coarsen flags, so a pass that
changes anything at all moves this measure strictly down. -/
def flagPhi (L : List ACell) : Nat :=
  (L.map fun c => (if c.info.refineFlag then 0 else 1) +
    (if c.info.coarsenFlag then 1 else 0)).sum

/-- No cell carries any flag. -/
def no_flags (t : QT) : Prop :=
  ∀ c ∈ acells t, c.info.refineFlag = false ∧ c.info.coarsenFlag = false

instance (t : QT) : Decidable (no_flags t) := by unfold no_flags; infer_instance

/-! ## Faces/edges and whole meshes

Faces (edges, in 2D) are shared objects carrying boundary indicators.  An
edge of the level-`l` grid is identified by its orientation and integer
coordinates: the horizontal edge `(l, x, y)` is the segment
`[x/2^l,(x+1)/2^l] × {y/2^l}`, the vertical edge `(l, x, y)` is
`{x/2^l} × [y/2^l,(y+1)/2^l]`. -/

/-- An edge identifier. -/
structure EKey where
  horiz : Bool
  lvl : Nat
  ex : Nat
  ey : Nat
deriving DecidableEq

/-- The edge store: an association list from edge identifiers to boundary
indicators (edges are created once and keep their indicator). -/
def lookupE (st : List (EKey × Nat)) (k : EKey) : Option Nat :=
  (st.find? fun p => decide (p.1 = k)).map (fun p => p.2)

/-- Create an edge with the given boundary indicator unless it already exists
(a face shared with an already refined neighbor was split before). -/
def insertE (k : EKey) (v : Nat) (st : List (EKey × Nat)) : List (EKey × Nat) :=
  if (lookupE st k).isSome then st else (k, v) :: st

/-- The four edges of the cell at position `p`: bottom, top, left, right. -/
def cell_edges (p : Sq) : List EKey :=
  [⟨true, p.lvl, p.x, p.y⟩, ⟨true, p.lvl, p.x, p.y + 1⟩,
    ⟨false, p.lvl, p.x, p.y⟩, ⟨false, p.lvl, p.x + 1, p.y⟩]

/-- The two children into which an edge is split upon refinement. -/
def edge_children (e : EKey) : List EKey :=
  if e.horiz then
    [⟨true, e.lvl + 1, 2 * e.ex, 2 * e.ey⟩, ⟨true, e.lvl + 1, 2 * e.ex + 1, 2 * e.ey⟩]
  else
    [⟨false, e.lvl + 1, 2 * e.ex, 2 * e.ey⟩, ⟨false, e.lvl + 1, 2 * e.ex, 2 * e.ey + 1⟩]

/-- The four interior edges newly created inside a refined cell at position
`p` (the cross connecting the four children). -/
def interior_edges (p : Sq) : List EKey :=
  [⟨true, p.lvl + 1, 2 * p.x, 2 * p.y + 1⟩, ⟨true, p.lvl + 1, 2 * p.x + 1, 2 * p.y + 1⟩,
    ⟨false, p.lvl + 1, 2 * p.x + 1, 2 * p.y⟩, ⟨false, p.lvl + 1, 2 * p.x + 1, 2 * p.y + 1⟩]

/-- Modelled from the spec: splitting an edge on refinement — both children
inherit the parent's boundary indicator ("lines … inherit their boundary
indicator to their children upon refinement", header); if the edge was already
split by the neighbor, nothing happens. -/
def split_edge (e : EKey) (st : List (EKey × Nat)) : List (EKey × Nat) :=
  let b := (lookupE st e).getD internal_face_boundary_id
  (edge_children e).foldl (fun st' ce => insertE ce b st') st

/-- Modelled from the spec: the face bookkeeping of refining one cell — its
four edges are split (children inheriting the boundary indicator), and the
four new interior edges receive the "interior, not on the boundary" sentinel
`internal_face_boundary_id` (header: interior lines "do not have a boundary
indicator" and carry the reserved value). -/
def refine_cell_edges (p : Sq) (st : List (EKey × Nat)) : List (EKey × Nat) :=
  let st1 := (cell_edges p).foldl (fun st' e => split_edge e st') st
  (interior_edges p).foldl (fun st' ie => insertE ie internal_face_boundary_id st') st1

/-- A triangulation with its face (edge) data. -/
structure Mesh where
  tree : QT
  edges : List (EKey × Nat)
deriving DecidableEq

/-- The active cells flagged for refinement. -/
def flagged_cells (t : QT) : List ACell :=
  (acells t).filter fun c => c.info.refineFlag

/-- Modelled from the spec: `execute_coarsening_and_refinement` including the
face bookkeeping: after preparation and coarsening, every cell flagged for
refinement is refined, splitting its edges and creating its interior edges. -/
def ecr_mesh (s : Nat) (m : Mesh) : Mesh :=
  let tc := execute_coarsening (prepare_coarsening_and_refinement s m.tree)
  ⟨clear_all_flags (execute_refinement tc),
    (flagged_cells tc).foldl (fun st c => refine_cell_edges c.sq st) m.edges⟩

/-- Modelled from the spec: `GridGenerator::hyper_cube` with default arguments
— one cell spanning the unit square; the generator sets the material id of
all cells to zero, and with `colorize = false` all boundary indicators are
zero (header docs of `GridGenerator` and `hyper_cube`). -/
def hyper_cube : Mesh :=
  ⟨.leaf ⟨0, false, false⟩,
    [(⟨true, 0, 0, 0⟩, 0), (⟨true, 0, 0, 1⟩, 0),
      (⟨false, 0, 0, 0⟩, 0), (⟨false, 0, 1, 0⟩, 0)]⟩

/-- `set_all_refine_flags`: flag all active cells for refinement (header). -/
def set_all_refine_flags (m : Mesh) : Mesh :=
  ⟨map_active (fun _ _ _ i => { i with refineFlag := true }) m.tree 0 0 0, m.edges⟩

/-- `refine_global` (one step): `set_all_refine_flags` followed by
`execute_coarsening_and_refinement` (header). -/
def refine_global (s : Nat) (m : Mesh) : Mesh := ecr_mesh s (set_all_refine_flags m)

/-- The corners of all active cells on the common integer grid of the finest
level, without duplicates: the used vertices of the triangulation. -/
def mesh_vertices (t : QT) : List (Nat × Nat) :=
  (((acells t).flatMap fun c =>
    [(c.x * 2 ^ (depthQ t - c.lvl), c.y * 2 ^ (depthQ t - c.lvl)),
      ((c.x + 1) * 2 ^ (depthQ t - c.lvl), c.y * 2 ^ (depthQ t - c.lvl)),
      (c.x * 2 ^ (depthQ t - c.lvl), (c.y + 1) * 2 ^ (depthQ t - c.lvl)),
      ((c.x + 1) * 2 ^ (depthQ t - c.lvl), (c.y + 1) * 2 ^ (depthQ t - c.lvl))]).dedup)

/-- Number of (distinct, used) vertices. -/
def n_vertices (t : QT) : Nat := (mesh_vertices t).length

/-- The edges of all active cells. -/
def active_edges (m : Mesh) : List EKey :=
  ((acells m.tree).flatMap fun c => cell_edges c.sq).dedup

/-- The edge lies on the boundary of the unit-square domain. -/
def edge_on_boundary (e : EKey) : Prop :=
  if e.horiz then e.ey = 0 ∨ e.ey = 2 ^ e.lvl else e.ex = 0 ∨ e.ex = 2 ^ e.lvl

instance (e : EKey) : Decidable (edge_on_boundary e) := by
  unfold edge_on_boundary; infer_instance

/-- Smoothing does not include either of the refined-island elimination bits
(the only smoothing algorithms that place coarsen flags). -/
def coarsening_islands_off (s : Nat) : Prop :=
  hasSmoothing s (eliminate_refined_inner_islands ||| eliminate_refined_boundary_islands)
    = false

instance (s : Nat) : Decidable (coarsening_islands_off s) := by
  unfold coarsening_islands_off; infer_instance

/-- The smoothing contains none of the algorithms that place flags of their
own accord on a flag-free mesh: neither of the refined-island eliminations
(which place coarsen flags) nor `eliminate_unrefined_islands` or
`patch_level_1` (which place refine flags).  `coarsest_level_1` and
`do_not_produce_unrefined_islands` only ever remove coarsen flags. -/
def flag_inventing_smoothing_off (s : Nat) : Prop :=
  hasSmoothing s (eliminate_unrefined_islands ||| patch_level_1 |||
    eliminate_refined_inner_islands ||| eliminate_refined_boundary_islands) = false

instance (s : Nat) : Decidable (flag_inventing_smoothing_off s) := by
  unfold flag_inventing_smoothing_off; infer_instance

/-! ## Serialization (`Triangulation::save` / `Triangulation::load`)

These two template bodies are present in the header and are translated
field-for-field; an archive is modelled as a record holding exactly the
fields the source streams with `ar &`. -/

/-- Stored per-cell data of a level (material id, manifold id, child link —
`none` meaning active/no children). -/
structure CellStore where
  materialId : Nat
  manifoldId : Nat
  childIndex : Option Nat
deriving DecidableEq

/-- The serialized payload of one level.  The source notes that "the levels do
not serialize the active_cell_indices because they are easy enough to rebuild
upon re-loading", so they are not part of the payload. -/
structure LevelPayload where
  refineFlags : List Bool
  coarsenFlags : List Bool
  cells : List CellStore
deriving DecidableEq

/-- One level of the triangulation: its payload plus the cached active cell
indices. -/
structure TriaLevel where
  payload : LevelPayload
  activeCellIndices : List Nat
deriving DecidableEq

/-- The face container (boundary and manifold indicators of the faces). -/
structure FacesData where
  boundaryIds : List Nat
  manifoldIds : List Nat
deriving DecidableEq

/-- The cached element counts. -/
structure NumberCache where
  nActiveCells : Nat
  nLevels : Nat
deriving DecidableEq

/-- The state of a `Triangulation` relevant to serialization.  `manifold` is
the map of attached manifold objects and `signalConnections` the observer
connections — both are deliberately not streamed by `save` (source: "do not
store the signals as well as boundary and manifold description but everything
else"). -/
structure TriaState where
  smooth_grid : Nat
  levels : List TriaLevel
  faces : Option FacesData
  vertices : List (Int × Int)
  vertices_used : List Bool
  anisotropic_refinement : Bool
  number_cache : NumberCache
  check_for_distorted_cells : Bool
  manifold : List (Nat × Nat)
  signalConnections : List Nat
  vertex_to_boundary_id_map_1d : List (Nat × Nat)
  vertex_to_manifold_id_map_1d : List (Nat × Nat)
deriving DecidableEq

/-- The archive written by `Triangulation::save`: exactly the fields the
source streams (`smooth_grid`, the number of levels and each level, the
`faces_is_nullptr` workaround and the faces, vertices, `vertices_used`,
`anisotropic_refinement`, `number_cache`, `check_for_distorted_cells`, and the
1d vertex-to-id maps).  The `Option` on `faces` captures the
`faces_is_nullptr` bool plus conditional streaming. -/
structure TriaArchive where
  smooth_grid : Nat
  n_levels_stored : Nat
  levelPayloads : List LevelPayload
  faces : Option FacesData
  vertices : List (Int × Int)
  vertices_used : List Bool
  anisotropic_refinement : Bool
  number_cache : NumberCache
  check_for_distorted_cells : Bool
  vertex_to_boundary_id_map_1d : List (Nat × Nat)
  vertex_to_manifold_id_map_1d : List (Nat × Nat)
deriving DecidableEq

/-- `Triangulation::save`, translated field-for-field from the header. -/
def save (t : TriaState) : TriaArchive :=
  ⟨t.smooth_grid, t.levels.length, t.levels.map (fun lv => lv.payload), t.faces,
    t.vertices, t.vertices_used, t.anisotropic_refinement, t.number_cache,
    t.check_for_distorted_cells, t.vertex_to_boundary_id_map_1d,
    t.vertex_to_manifold_id_map_1d⟩

/-- Modelled from the spec: `reset_active_cell_indices` (body in `tria.cc`,
not in the snapshot) — number the active cells consecutively, level by level;
inactive cells receive an invalid index. -/
def assign_indices : List CellStore → Nat → List Nat × Nat
  | [], n => ([], n)
  | c :: cs, n =>
      if c.childIndex.isNone then
        let r := assign_indices cs (n + 1)
        (n :: r.1, r.2)
      else
        let r := assign_indices cs n
        (4294967295 :: r.1, r.2)

/-- Rebuild the active cell indices of all levels. -/
def reset_active_cell_indices_go : List LevelPayload → Nat → List (List Nat)
  | [], _ => []
  | p :: ps, n =>
      let r := assign_indices p.cells n
      r.1 :: reset_active_cell_indices_go ps r.2

/-- Rebuild the active cell indices of all levels, starting from zero. -/
def reset_active_cell_indices (ps : List LevelPayload) : List (List Nat) :=
  reset_active_cell_indices_go ps 0

/-- `Triangulation::clear`, as documented in the header ("reset this
triangulation into a virgin state by deleting all data"): the mesh data is
emptied; signal connections (and attached manifolds) belong to the observers
and are not data of the mesh itself. -/
def clearT (t : TriaState) : TriaState :=
  { t with
    levels := []
    faces := Option.none
    vertices := []
    vertices_used := []
    anisotropic_refinement := false
    number_cache := ⟨0, 0⟩ }

/-- `Triangulation::load`, translated field-for-field from the header: clear
the previous content, restore every streamed field, rebuild the
`active_cell_indices`, and check that the stored
`check_for_distorted_cells` agrees with the target triangulation's setting
(the `Assert` of the source, modelled as returning `none`).  The signal
connections and the attached manifolds are not restored from the archive. -/
def load (ar : TriaArchive) (t : TriaState) : Option TriaState :=
  let t0 := clearT t
  if ar.check_for_distorted_cells = t.check_for_distorted_cells then
    some { t0 with
      smooth_grid := ar.smooth_grid
      levels := (ar.levelPayloads.zip (reset_active_cell_indices ar.levelPayloads)).map
        (fun pq => ⟨pq.1, pq.2⟩)
      faces := ar.faces
      vertices := ar.vertices
      vertices_used := ar.vertices_used
      anisotropic_refinement := ar.anisotropic_refinement
      number_cache := ar.number_cache
      vertex_to_boundary_id_map_1d := ar.vertex_to_boundary_id_map_1d
      vertex_to_manifold_id_map_1d := ar.vertex_to_manifold_id_map_1d }
  else Option.none

/-- A triangulation state whose cached active cell indices agree with what
`reset_active_cell_indices` rebuilds. -/
def wf_indices (t : TriaState) : Prop :=
  t.levels.map (fun lv => lv.activeCellIndices) =
    reset_active_cell_indices (t.levels.map (fun lv => lv.payload))

instance (t : TriaState) : Decidable (wf_indices t) := by
  unfold wf_indices; infer_instance

/-- The number of active cells, computed from the level data. -/
def n_active_computed (levels : List TriaLevel) : Nat :=
  (levels.map fun lv =>
    (lv.payload.cells.filter fun c => c.childIndex.isNone).length).sum

/-! ## Coarse-mesh creation and the distorted-cell condition -/

/-- A coarse-mesh cell record handed to `create_triangulation`: the four
vertex indices in lexicographic ordering and the material id. -/
structure RawCell where
  v0 : Nat
  v1 : Nat
  v2 : Nat
  v3 : Nat
  materialId : Nat
deriving DecidableEq

/-- Two-dimensional cross product. -/
def cross (u v : Int × Int) : Int := u.1 * v.2 - u.2 * v.1

/-- Vector difference. -/
def vsub (u v : Int × Int) : Int × Int := (u.1 - v.1, u.2 - v.2)

/-- Modelled from the spec:
`GeometryInfo::jacobian_determinants_at_vertices` for a bilinear quad with
lexicographically ordered corners `p0 = (0,0)`, `p1 = (1,0)`, `p2 = (0,1)`,
`p3 = (1,1)`: the Jacobian determinant of the mapping from the reference cell
at each of the four corners. -/
def jacobian_determinants_at_vertices (p0 p1 p2 p3 : Int × Int) : List Int :=
  [cross (vsub p1 p0) (vsub p2 p0), cross (vsub p1 p0) (vsub p3 p1),
    cross (vsub p3 p2) (vsub p2 p0), cross (vsub p3 p2) (vsub p3 p1)]

/-- Vertex lookup (out-of-range indices give the origin). -/
def vertAt (verts : List (Int × Int)) (i : Nat) : Int × Int := verts.getD i (0, 0)

/-- A cell is deformed/distorted: "the determinant of the Jacobian of the
mapping from reference cell to real cell is negative at least at one vertex"
(header; zero determinants, i.e. collapsed edges, also count as degenerate,
which is the non-positivity the claims describe). -/
def cellDistorted (verts : List (Int × Int)) (c : RawCell) : Prop :=
  ∃ dt ∈ jacobian_determinants_at_vertices (vertAt verts c.v0) (vertAt verts c.v1)
    (vertAt verts c.v2) (vertAt verts c.v3), dt ≤ 0

instance (verts : List (Int × Int)) (c : RawCell) : Decidable (cellDistorted verts c) := by
  unfold cellDistorted; infer_instance

/-- The coarse triangulation built by `create_triangulation`. -/
structure BuiltTria where
  vertices : List (Int × Int)
  cells : List RawCell
deriving DecidableEq

/-- Modelled from the spec: `create_triangulation` — the coarse mesh is built;
then, only if `check_for_distorted_cells` was specified upon creation of the
triangulation, "at the very end of its operation, the current function walks
over all cells" and collects the distorted ones; the resulting
`DistortedCellList` is surfaced as a catchable condition next to the already
fully-built triangulation (header: "Since this happens after all data
structures have been set up, you can catch and ignore this exception"). -/
def create_triangulation (check : Bool) (verts : List (Int × Int))
    (cells : List RawCell) : BuiltTria × List Nat :=
  (⟨verts, cells⟩,
    if check then
      (List.range cells.length).filter fun i =>
        decide (cellDistorted verts (cells.getD i ⟨0, 0, 0, 0, 0⟩))
    else [])

/-- The Jacobian determinants at the four corners of the cell at position
`p`, as placed by the vertex-placement map `vmap`: the new vertex positions
are computed by the Manifold objects attached to the triangulation (spec
§4.3), so `vmap l gx gy` is the position given to the grid point
`(gx/2^l, gy/2^l)` of the level-`l` grid. -/
def cell_jacobian_dets (vmap : Nat → Nat → Nat → Int × Int) (p : Sq) : List Int :=
  jacobian_determinants_at_vertices (vmap p.lvl p.x p.y) (vmap p.lvl (p.x + 1) p.y)
    (vmap p.lvl p.x (p.y + 1)) (vmap p.lvl (p.x + 1) (p.y + 1))

/-- The flat vertex placement of the unit square: grid points keep their
dyadic positions, scaled to the integer grid of level `L` (the placement of
`GridGenerator::hyper_cube` with no curved manifold attached). -/
def flat_vmap (L : Nat) : Nat → Nat → Nat → Int × Int :=
  fun l gx gy => ((gx : Int) * 2 ^ (L - l), (gy : Int) * 2 ^ (L - l))

/-- A vertex placement that collapses the grid point `(1, 1)` into the
origin: the manifold folds the cell over, producing degenerate children. -/
def wvmap : Nat → Nat → Nat → Int × Int :=
  fun _ gx gy => if gx = 1 ∧ gy = 1 then (0, 0) else ((gx : Int), (gy : Int))

/-- The children of an active cell created by refining it. -/
def refined_children (c : ACell) : List ACell :=
  [⟨c.lvl + 1, 2 * c.x, 2 * c.y, childInfo c.info⟩,
    ⟨c.lvl + 1, 2 * c.x + 1, 2 * c.y, childInfo c.info⟩,
      ⟨c.lvl + 1, 2 * c.x, 2 * c.y + 1, childInfo c.info⟩,
        ⟨c.lvl + 1, 2 * c.x + 1, 2 * c.y + 1, childInfo c.info⟩]

/-- Modelled from the spec: the distorted-cell scan of
`execute_coarsening_and_refinement` — if distortion checking is enabled, scan
all newly created cells (their vertices placed by the attached manifolds,
`vmap`) for a non-positive Jacobian determinant at some vertex and collect
the offenders (returned, after the mutation has completed, as the catchable
`DistortedCellList`). -/
def ecr_distorted_cells (check : Bool) (s : Nat) (t : QT)
    (vmap : Nat → Nat → Nat → Int × Int) : List Sq :=
  if check then
    (flagged_cells (execute_coarsening (prepare_coarsening_and_refinement s t))).flatMap
      fun c =>
        (refined_children c).filterMap fun n =>
          if (cell_jacobian_dets vmap n.sq).any (fun dt => decide (dt ≤ 0)) then
            some n.sq
          else none
  else []

/-! ## Concrete meshes used in scenarios, counterexamples and witnesses -/

/-- A level-`0`-labelled leaf with the given flags (material id 0). -/
def leafQ (r c : Bool) : QT := .leaf ⟨0, r, c⟩

/-- The unit square refined once, then its lower-left child refined once, with
the refine flag on the child's upper-right grandchild (position `(2,1,1)`).
This mesh is reachable from `hyper_cube` by three flag/execute cycles; it is
vertex-balanced. -/
def c1mesh : QT :=
  .node ⟨0, false, false⟩
    (.node ⟨0, false, false⟩ (leafQ false false) (leafQ false false)
      (leafQ false false) (leafQ true false))
    (leafQ false false) (leafQ false false) (leafQ false false)

/-- The unit square refined once, then its lower-left child refined once; no
flags anywhere.  The lower-left child is a "refined island": all its children
are active and all its neighbors are quiet. -/
def islmesh : QT :=
  .node ⟨0, false, false⟩
    (.node ⟨0, false, false⟩ (leafQ false false) (leafQ false false)
      (leafQ false false) (leafQ false false))
    (leafQ false false) (leafQ false false) (leafQ false false)

/-- The unit square refined once with exactly three of the four children
flagged for coarsening. -/
def c2mesh : QT :=
  .node ⟨0, false, false⟩ (leafQ false true) (leafQ false true)
    (leafQ false true) (leafQ false false)

/-- The unit square refined once, with material ids `7,7,7,7` on the children
and the refine flag on the lower-left child, together with its edge store:
the eight boundary sub-edges with indicator `0`, the four interior edges with
the sentinel, and the four coarse edges with indicator `0`. -/
def c3mesh : Mesh :=
  ⟨.node ⟨7, false, false⟩ (.leaf ⟨7, true, false⟩) (.leaf ⟨7, false, false⟩)
      (.leaf ⟨7, false, false⟩) (.leaf ⟨7, false, false⟩),
    [(⟨true, 0, 0, 0⟩, 0), (⟨true, 0, 0, 1⟩, 0), (⟨false, 0, 0, 0⟩, 0), (⟨false, 0, 1, 0⟩, 0),
      (⟨true, 1, 0, 0⟩, 0), (⟨true, 1, 1, 0⟩, 0), (⟨true, 1, 0, 2⟩, 0), (⟨true, 1, 1, 2⟩, 0),
      (⟨false, 1, 0, 0⟩, 0), (⟨false, 1, 0, 1⟩, 0), (⟨false, 1, 2, 0⟩, 0), (⟨false, 1, 2, 1⟩, 0),
      (⟨true, 1, 0, 1⟩, internal_face_boundary_id), (⟨true, 1, 1, 1⟩, internal_face_boundary_id),
      (⟨false, 1, 1, 0⟩, internal_face_boundary_id), (⟨false, 1, 1, 1⟩, internal_face_boundary_id)]⟩

/-- The unit square refined once with all four children flagged for
coarsening (and nothing else). -/
def c4mesh : QT :=
  .node ⟨0, false, false⟩ (leafQ false true) (leafQ false true)
    (leafQ false true) (leafQ false true)

/-- A corridor mesh for the smoothing pass-count bound: the bottom half of
the square is refined to level 3 near the bottom (rows `y = 0, 1` of the
level-3 grid) and to level 2 above; the whole row `y = 1` is flagged for
refinement and so is the corridor cell `(0, 0)`.  Under
`eliminate_unrefined_islands`, the island flagging then walks along the
bottom row one cell per pass (each cell acquires a majority — flagged left
neighbor, flagged top neighbor, uncounted boundary below — only after its
left neighbor was flagged in the previous pass), so the corridor of length 8
needs more passes than the mesh has levels. -/
def c5mesh : QT :=
  .node ⟨0, false, false⟩
    (.node ⟨0, false, false⟩
      (.node ⟨0, false, false⟩ (leafQ true false) (leafQ false false)
        (leafQ true false) (leafQ true false))
      (.node ⟨0, false, false⟩ (leafQ false false) (leafQ false false)
        (leafQ true false) (leafQ true false))
      (leafQ false false) (leafQ false false))
    (.node ⟨0, false, false⟩
      (.node ⟨0, false, false⟩ (leafQ false false) (leafQ false false)
        (leafQ true false) (leafQ true false))
      (.node ⟨0, false, false⟩ (leafQ false false) (leafQ false false)
        (leafQ true false) (leafQ true false))
      (leafQ false false) (leafQ false false))
    (leafQ false false) (leafQ false false)

/-- A concrete triangulation state for the serialization scenario: two levels
(one refined coarse cell with four active children), faces, vertices, a
non-trivial manifold map and signal connections. -/
def c7state : TriaState :=
  ⟨3,
    [⟨⟨[false], [false], [⟨5, 0, some 0⟩]⟩, [4294967295]⟩,
      ⟨⟨[true, false, false, false], [false, false, false, false],
        [⟨5, 0, Option.none⟩, ⟨5, 0, Option.none⟩, ⟨5, 0, Option.none⟩,
          ⟨5, 0, Option.none⟩]⟩, [0, 1, 2, 3]⟩],
    some ⟨[0, 0, 1], [0, 0, 0]⟩, [(0, 0), (1, 0)], [true, true], false, ⟨4, 2⟩,
    true, [(1, 2)], [9], [], []⟩

/-- A freshly constructed target triangulation for `load`: same
`check_for_distorted_cells` setting as `c7state`, its own manifolds and signal
connections, and unrelated prior content. -/
def c7target : TriaState :=
  ⟨0, [⟨⟨[false], [false], [⟨1, 0, Option.none⟩]⟩, [0]⟩], Option.none,
    [(5, 5)], [true], true, ⟨1, 1⟩, true, [(8, 8)], [42, 43], [], []⟩

-- DEFS-END-MARKER

/-! ## Basic lemmas -/

theorem active_cells_map_active (f : Nat → Nat → Nat → CellInfo → CellInfo)
    (t : QT) : ∀ l x y, active_cells (map_active f t l x y) l x y =
      (active_cells t l x y).map
        (fun c => ⟨c.lvl, c.x, c.y, f c.lvl c.x c.y c.info⟩) := by
  induction t with
  | leaf i => intro l x y; rfl
  | node i a b c d iha ihb ihc ihd =>
      intro l x y
      simp [active_cells, map_active, iha, ihb, ihc, ihd]

theorem ivT_symm {l₁ x₁ l₂ x₂ : Nat} (h : ivT l₁ x₁ l₂ x₂) : ivT l₂ x₂ l₁ x₁ :=
  ⟨h.2, h.1⟩

theorem ivO_symm {l₁ x₁ l₂ x₂ : Nat} (h : ivO l₁ x₁ l₂ x₂) : ivO l₂ x₂ l₁ x₁ :=
  ⟨h.2, h.1⟩

theorem ivO_to_ivT {l₁ x₁ l₂ x₂ : Nat} (h : ivO l₁ x₁ l₂ x₂) : ivT l₁ x₁ l₂ x₂ :=
  ⟨Nat.le_of_lt h.1, Nat.le_of_lt h.2⟩

theorem ivT_child {l x l' x' i : Nat} (hi : i ≤ 1)
    (h : ivT (l + 1) (2 * x + i) l' x') : ivT l x l' x' := by
  obtain ⟨h1, h2⟩ := h
  have e : (2 : Nat) ^ (l + 1) = 2 * 2 ^ l := by rw [pow_succ]; ring
  rw [e] at h1 h2
  constructor
  · have h3 : 2 * (x * 2 ^ l') ≤ 2 * ((x' + 1) * 2 ^ l) := by
      calc 2 * (x * 2 ^ l') = 2 * x * 2 ^ l' := by ring
        _ ≤ (2 * x + i) * 2 ^ l' := Nat.mul_le_mul_right _ (by omega)
        _ ≤ (x' + 1) * (2 * 2 ^ l) := h1
        _ = 2 * ((x' + 1) * 2 ^ l) := by ring
    exact Nat.le_of_mul_le_mul_left h3 (by norm_num)
  · have h3 : 2 * (x' * 2 ^ l) ≤ 2 * ((x + 1) * 2 ^ l') := by
      calc 2 * (x' * 2 ^ l) = x' * (2 * 2 ^ l) := by ring
        _ ≤ (2 * x + i + 1) * 2 ^ l' := h2
        _ ≤ (2 * x + 2) * 2 ^ l' := Nat.mul_le_mul_right _ (by omega)
        _ = 2 * ((x + 1) * 2 ^ l') := by ring
    exact Nat.le_of_mul_le_mul_left h3 (by norm_num)

theorem ivO_child {l x l' x' i : Nat} (hi : i ≤ 1)
    (h : ivO (l + 1) (2 * x + i) l' x') : ivO l x l' x' := by
  obtain ⟨h1, h2⟩ := h
  have e : (2 : Nat) ^ (l + 1) = 2 * 2 ^ l := by rw [pow_succ]; ring
  rw [e] at h1 h2
  constructor
  · have h3 : 2 * (x * 2 ^ l') < 2 * ((x' + 1) * 2 ^ l) := by
      calc 2 * (x * 2 ^ l') = 2 * x * 2 ^ l' := by ring
        _ ≤ (2 * x + i) * 2 ^ l' := Nat.mul_le_mul_right _ (by omega)
        _ < (x' + 1) * (2 * 2 ^ l) := h1
        _ = 2 * ((x' + 1) * 2 ^ l) := by ring
    exact Nat.lt_of_mul_lt_mul_left h3
  · have h3 : 2 * (x' * 2 ^ l) < 2 * ((x + 1) * 2 ^ l') := by
      calc 2 * (x' * 2 ^ l) = x' * (2 * 2 ^ l) := by ring
        _ < (2 * x + i + 1) * 2 ^ l' := h2
        _ ≤ (2 * x + 2) * 2 ^ l' := Nat.mul_le_mul_right _ (by omega)
        _ = 2 * ((x + 1) * 2 ^ l') := by ring
    exact Nat.lt_of_mul_lt_mul_left h3

theorem ivT_split {l x l' x' : Nat} (h : ivT l x l' x') :
    ivT (l + 1) (2 * x) l' x' ∨ ivT (l + 1) (2 * x + 1) l' x' := by
  obtain ⟨h1, h2⟩ := h
  have e : (2 : Nat) ^ (l + 1) = 2 * 2 ^ l := by rw [pow_succ]; ring
  rcases Nat.le_total (x' * 2 ^ (l + 1)) ((2 * x + 1) * 2 ^ l') with hc | hc
  · left
    refine ⟨?_, hc⟩
    rw [e]
    calc 2 * x * 2 ^ l' = 2 * (x * 2 ^ l') := by ring
      _ ≤ 2 * ((x' + 1) * 2 ^ l) := Nat.mul_le_mul_left _ h1
      _ = (x' + 1) * (2 * 2 ^ l) := by ring
  · right
    refine ⟨?_, ?_⟩
    · calc (2 * x + 1) * 2 ^ l' ≤ x' * 2 ^ (l + 1) := hc
        _ ≤ (x' + 1) * 2 ^ (l + 1) := Nat.mul_le_mul_right _ (by omega)
    · rw [e]
      calc x' * (2 * 2 ^ l) = 2 * (x' * 2 ^ l) := by ring
        _ ≤ 2 * ((x + 1) * 2 ^ l') := Nat.mul_le_mul_left _ h2
        _ = (2 * x + 1 + 1) * 2 ^ l' := by ring

theorem ivO_split {l x l' x' : Nat} (h : ivO l x l' x') :
    ivO (l + 1) (2 * x) l' x' ∨ ivO (l + 1) (2 * x + 1) l' x' := by
  obtain ⟨h1, h2⟩ := h
  have e : (2 : Nat) ^ (l + 1) = 2 * 2 ^ l := by rw [pow_succ]; ring
  rcases Nat.lt_or_ge (x' * 2 ^ (l + 1)) ((2 * x + 1) * 2 ^ l') with hc | hc
  · left
    refine ⟨?_, hc⟩
    rw [e]
    calc 2 * x * 2 ^ l' = 2 * (x * 2 ^ l') := by ring
      _ < 2 * ((x' + 1) * 2 ^ l) := by omega
      _ = (x' + 1) * (2 * 2 ^ l) := by ring
  · right
    refine ⟨?_, ?_⟩
    · calc (2 * x + 1) * 2 ^ l' ≤ x' * 2 ^ (l + 1) := hc
        _ < (x' + 1) * 2 ^ (l + 1) := by
            have h4 : x' * 2 ^ (l + 1) + 2 ^ (l + 1) = (x' + 1) * 2 ^ (l + 1) := by
              ring
            have h5 : 0 < (2 : Nat) ^ (l + 1) := Nat.pos_pow_of_pos _ (by norm_num)
            omega
    · rw [e]
      calc x' * (2 * 2 ^ l) = 2 * (x' * 2 ^ l) := by ring
        _ < 2 * ((x + 1) * 2 ^ l') := by omega
        _ = (2 * x + 1 + 1) * 2 ^ l' := by ring

theorem sqT_symm {p q : Sq} (h : sqT p q) : sqT q p :=
  ⟨ivT_symm h.1, ivT_symm h.2⟩

theorem sqF_symm {p q : Sq} (h : sqF p q) : sqF q p :=
  ⟨sqT_symm h.1, h.2.imp ivO_symm ivO_symm⟩

theorem sqF_to_sqT {p q : Sq} (h : sqF p q) : sqT p q := h.1

theorem sqT_child_left {p q : Sq} {i j : Nat} (hi : i ≤ 1) (hj : j ≤ 1)
    (h : sqT (p.child i j) q) : sqT p q :=
  ⟨ivT_child hi h.1, ivT_child hj h.2⟩

theorem sqF_child_left {p q : Sq} {i j : Nat} (hi : i ≤ 1) (hj : j ≤ 1)
    (h : sqF (p.child i j) q) : sqF p q :=
  ⟨sqT_child_left hi hj h.1, h.2.imp (ivO_child hi) (ivO_child hj)⟩

theorem sqT_child_right {p q : Sq} {i j : Nat} (hi : i ≤ 1) (hj : j ≤ 1)
    (h : sqT p (q.child i j)) : sqT p q :=
  sqT_symm (sqT_child_left hi hj (sqT_symm h))

theorem sqF_child_right {p q : Sq} {i j : Nat} (hi : i ≤ 1) (hj : j ≤ 1)
    (h : sqF p (q.child i j)) : sqF p q :=
  sqF_symm (sqF_child_left hi hj (sqF_symm h))

/-- Splitting a touched square: anything touching a square touches one of its
four children. -/
theorem sqT_split {p q : Sq} (h : sqT q p) :
    ∃ i j, i ≤ 1 ∧ j ≤ 1 ∧ sqT q (p.child i j) := by
  obtain ⟨hx, hy⟩ := h
  have hx' := ivT_split (ivT_symm hx)
  have hy' := ivT_split (ivT_symm hy)
  rcases hx' with hx' | hx' <;> rcases hy' with hy' | hy'
  · exact ⟨0, 0, by omega, by omega, ⟨ivT_symm hx', ivT_symm hy'⟩⟩
  · exact ⟨0, 1, by omega, by omega, ⟨ivT_symm hx', ivT_symm hy'⟩⟩
  · exact ⟨1, 0, by omega, by omega, ⟨ivT_symm hx', ivT_symm hy'⟩⟩
  · exact ⟨1, 1, by omega, by omega, ⟨ivT_symm hx', ivT_symm hy'⟩⟩

/-- Splitting a shared edge piece: anything sharing an edge piece with a
square shares an edge piece with one of its four children. -/
theorem sqF_split {p q : Sq} (h : sqF q p) :
    ∃ i j, i ≤ 1 ∧ j ≤ 1 ∧ sqF q (p.child i j) := by
  obtain ⟨⟨hx, hy⟩, ho⟩ := h
  rcases ho with ho | ho
  · have hox := ivO_split (ivO_symm ho)
    have hys := ivT_split (ivT_symm hy)
    rcases hox with hox | hox <;> rcases hys with hys | hys
    · exact ⟨0, 0, by omega, by omega,
        ⟨⟨ivO_to_ivT (ivO_symm hox), ivT_symm hys⟩, Or.inl (ivO_symm hox)⟩⟩
    · exact ⟨0, 1, by omega, by omega,
        ⟨⟨ivO_to_ivT (ivO_symm hox), ivT_symm hys⟩, Or.inl (ivO_symm hox)⟩⟩
    · exact ⟨1, 0, by omega, by omega,
        ⟨⟨ivO_to_ivT (ivO_symm hox), ivT_symm hys⟩, Or.inl (ivO_symm hox)⟩⟩
    · exact ⟨1, 1, by omega, by omega,
        ⟨⟨ivO_to_ivT (ivO_symm hox), ivT_symm hys⟩, Or.inl (ivO_symm hox)⟩⟩
  · have hoy := ivO_split (ivO_symm ho)
    have hxs := ivT_split (ivT_symm hx)
    rcases hoy with hoy | hoy <;> rcases hxs with hxs | hxs
    · exact ⟨0, 0, by omega, by omega,
        ⟨⟨ivT_symm hxs, ivO_to_ivT (ivO_symm hoy)⟩, Or.inr (ivO_symm hoy)⟩⟩
    · exact ⟨1, 0, by omega, by omega,
        ⟨⟨ivT_symm hxs, ivO_to_ivT (ivO_symm hoy)⟩, Or.inr (ivO_symm hoy)⟩⟩
    · exact ⟨0, 1, by omega, by omega,
        ⟨⟨ivT_symm hxs, ivO_to_ivT (ivO_symm hoy)⟩, Or.inr (ivO_symm hoy)⟩⟩
    · exact ⟨1, 1, by omega, by omega,
        ⟨⟨ivT_symm hxs, ivO_to_ivT (ivO_symm hoy)⟩, Or.inr (ivO_symm hoy)⟩⟩

/-! ## C10: the `maximum_smoothing` bit combination -/

/-- C10: `maximum_smoothing` contains every named smoothing bit except
`allow_anisotropic_smoothing`: it is disjoint from
`allow_anisotropic_smoothing`, while `limit_level_difference_at_vertices`,
`eliminate_unrefined_islands`, `patch_level_1`, `coarsest_level_1`,
`eliminate_refined_inner_islands`, `eliminate_refined_boundary_islands` and
`do_not_produce_unrefined_islands` are all contained in it. -/
theorem maximum_smoothing_bits :
    maximum_smoothing &&& allow_anisotropic_smoothing = 0 ∧
    maximum_smoothing &&& limit_level_difference_at_vertices =
      limit_level_difference_at_vertices ∧
    maximum_smoothing &&& eliminate_unrefined_islands = eliminate_unrefined_islands ∧
    maximum_smoothing &&& patch_level_1 = patch_level_1 ∧
    maximum_smoothing &&& coarsest_level_1 = coarsest_level_1 ∧
    maximum_smoothing &&& eliminate_refined_inner_islands =
      eliminate_refined_inner_islands ∧
    maximum_smoothing &&& eliminate_refined_boundary_islands =
      eliminate_refined_boundary_islands ∧
    maximum_smoothing &&& do_not_produce_unrefined_islands =
      do_not_produce_unrefined_islands := by
  decide

/-! ## C9: the unit square scenario -/

/-- C9: starting from `GridGenerator::hyper_cube` with default arguments and
performing one global refinement, the triangulation has exactly 4 active
cells and 9 vertices, every cell has material id 0, every active edge on the
domain boundary (the children of the 4 outer edges) has boundary id 0, and
the interior active edges carry the `internal_face_boundary_id` sentinel. -/
theorem hyper_cube_refine_global_once :
    (acells (refine_global MeshSmoothing.none hyper_cube).tree).length = 4 ∧
    n_vertices (refine_global MeshSmoothing.none hyper_cube).tree = 9 ∧
    (∀ c ∈ acells (refine_global MeshSmoothing.none hyper_cube).tree,
      c.info.materialId = 0) ∧
    (∀ e ∈ active_edges (refine_global MeshSmoothing.none hyper_cube),
      (edge_on_boundary e →
        lookupE (refine_global MeshSmoothing.none hyper_cube).edges e = some 0) ∧
      (¬edge_on_boundary e →
        lookupE (refine_global MeshSmoothing.none hyper_cube).edges e =
          some internal_face_boundary_id)) := by
  decide

/-! ## Counterexamples -/

/-- C1 counterexample: on the vertex-balanced mesh `c1mesh` (reachable from
`hyper_cube` by three flag/refine cycles), one
`execute_coarsening_and_refinement` with the default smoothing
(`MeshSmoothing.none`) produces a mesh in which two active cells sharing only
a vertex (the center) have levels 3 and 1: the face version of the invariant
holds, but the face/edge/vertex version claimed does not. -/
theorem one_irregular_at_vertices_cex :
    vertex_balanced c1mesh ∧
    face_balanced (execute_coarsening_and_refinement MeshSmoothing.none c1mesh) ∧
    ¬vertex_balanced (execute_coarsening_and_refinement MeshSmoothing.none c1mesh) := by
  decide

/-- C4 counterexample: on `islmesh`, which carries no flags at all,
`prepare_coarsening_and_refinement` with the
`eliminate_refined_boundary_islands` smoothing places coarsen flags the user
never set (on all four children of the refined island). -/
theorem prepare_invents_coarsen_flags_cex :
    no_flags islmesh ∧
    ∃ c ∈ acells (prepare_coarsening_and_refinement
      eliminate_refined_boundary_islands islmesh), c.info.coarsenFlag = true := by
  decide

/-- C6 counterexample: on `islmesh`, which carries no flags at all,
`execute_coarsening_and_refinement` with the
`eliminate_refined_boundary_islands` smoothing is not a no-op: the refined
island is coarsened away and the active cell count drops from 7 to 4. -/
theorem ecr_no_flags_not_noop_cex :
    no_flags islmesh ∧
    (acells (execute_coarsening_and_refinement
      eliminate_refined_boundary_islands islmesh)).length = 4 ∧
    (acells islmesh).length = 7 := by
  decide

/-! ## List and record helper lemmas -/

theorem eff_lvl_le (c : ACell) : c.lvl ≤ eff c := by
  unfold eff; split <;> omega

theorem eff_le (c : ACell) : eff c ≤ c.lvl + 1 := by
  unfold eff
  cases c.info.refineFlag <;> simp

theorem eff_of_flag {c : ACell} (h : c.info.refineFlag = true) :
    eff c = c.lvl + 1 := by unfold eff; rw [h]; rfl

theorem eff_of_unflag {c : ACell} (h : c.info.refineFlag = false) :
    eff c = c.lvl := by unfold eff; rw [h]; rfl

theorem relA_symm {s : Nat} {p q : Sq} (h : relA s p q) : relA s q p :=
  h.imp sqF_symm fun hh => ⟨hh.1, sqT_symm hh.2⟩

/-- The three flag sweeps, described as maps over the active cell list. -/
theorem acells_regularize (s : Nat) (t : QT) :
    acells (regularize s t) = (acells t).map fun c =>
      ⟨c.lvl, c.x, c.y,
        { c.info with refineFlag := c.info.refineFlag || victimB s (acells t) c }⟩ :=
  active_cells_map_active _ t 0 0 0

theorem acells_fix_coarsen_flags (t : QT) :
    acells (fix_coarsen_flags t) = (acells t).map fun c =>
      ⟨c.lvl, c.x, c.y,
        { c.info with coarsenFlag := c.info.coarsenFlag && keepCoarsenB (acells t) c }⟩ :=
  active_cells_map_active _ t 0 0 0

theorem acells_clear_all_flags (t : QT) :
    acells (clear_all_flags t) = (acells t).map fun c =>
      ⟨c.lvl, c.x, c.y, { c.info with refineFlag := false, coarsenFlag := false }⟩ :=
  active_cells_map_active _ t 0 0 0

theorem acells_unref_islands (s : Nat) (t : QT) :
    acells (unref_islands_step s t) = (acells t).map fun c =>
      ⟨c.lvl, c.x, c.y,
        { c.info with refineFlag := c.info.refineFlag ||
            (hasSmoothing s eliminate_unrefined_islands &&
              !hasSmoothing s patch_level_1 && majorityRefinedB (acells t) c.sq) }⟩ :=
  active_cells_map_active _ t 0 0 0

theorem acells_patch (s : Nat) (t : QT) :
    acells (patch_step s t) = (acells t).map fun c =>
      ⟨c.lvl, c.x, c.y,
        { c.info with refineFlag := c.info.refineFlag ||
            (hasSmoothing s patch_level_1 && siblingRefinedB (acells t) c.sq) }⟩ :=
  active_cells_map_active _ t 0 0 0

theorem acells_coarsest (s : Nat) (t : QT) :
    acells (coarsest_step s t) = (acells t).map fun c =>
      ⟨c.lvl, c.x, c.y,
        { c.info with coarsenFlag := c.info.coarsenFlag &&
            !(hasSmoothing s coarsest_level_1 && decide (c.lvl = 1)) }⟩ :=
  active_cells_map_active _ t 0 0 0

theorem acells_dnpui (s : Nat) (t : QT) :
    acells (dnpui_step s t) = (acells t).map fun c =>
      ⟨c.lvl, c.x, c.y,
        { c.info with coarsenFlag := c.info.coarsenFlag &&
            !(hasSmoothing s do_not_produce_unrefined_islands &&
              majorityRefinedB (acells t) c.sq) }⟩ :=
  active_cells_map_active _ t 0 0 0

theorem victimB_spec {s : Nat} {A : List ACell} {c : ACell} :
    victimB s A c = true ↔ ∃ d ∈ A, relA s c.sq d.sq ∧ c.lvl + 2 ≤ eff d := by
  unfold victimB
  simp [List.any_eq_true, Bool.and_eq_true, decide_eq_true_eq]

theorem effCheckB_spec {A : List ACell} {p : Sq} (h : effCheckB A p = true) :
    ∀ q ∈ A, sqT q.sq p → eff q ≤ p.lvl + 1 := by
  intro q hq hT
  have := List.all_eq_true.1 h q hq
  simp only [Bool.or_eq_true, Bool.not_eq_true', decide_eq_true_eq,
    decide_eq_false_iff_not] at this
  rcases this with h1 | h2
  · exact absurd hT h1
  · exact h2

theorem map_active_id (f : Nat → Nat → Nat → CellInfo → CellInfo) (t : QT) :
    ∀ l x y, (∀ c ∈ active_cells t l x y, f c.lvl c.x c.y c.info = c.info) →
      map_active f t l x y = t := by
  induction t with
  | leaf i =>
      intro l x y h
      have := h ⟨l, x, y, i⟩ (by simp [active_cells])
      simp only [map_active]
      rw [this]
  | node i a b c d iha ihb ihc ihd =>
      intro l x y h
      simp only [active_cells] at h
      simp only [map_active]
      rw [iha _ _ _ fun c hc => h c (by simp [hc]),
        ihb _ _ _ fun c hc => h c (by simp [hc]),
        ihc _ _ _ fun c hc => h c (by simp [hc]),
        ihd _ _ _ fun c hc => h c (by simp [hc])]

theorem lvl_le_depthQ (t : QT) :
    ∀ l x y, ∀ c ∈ active_cells t l x y, c.lvl ≤ l + depthQ t := by
  induction t with
  | leaf i =>
      intro l x y c hc
      simp only [active_cells, List.mem_singleton] at hc
      subst hc
      simp [depthQ]
  | node i a b c d iha ihb ihc ihd =>
      intro l x y e he
      simp only [active_cells, List.mem_append] at he
      have hd1 : depthQ (QT.node i a b c d) =
          1 + max (max (depthQ a) (depthQ b)) (max (depthQ c) (depthQ d)) := rfl
      rcases he with ((h | h) | h) | h
      · have := iha _ _ _ _ h; omega
      · have := ihb _ _ _ _ h; omega
      · have := ihc _ _ _ _ h; omega
      · have := ihd _ _ _ _ h; omega

theorem effCheckB_map {L : List ACell} {p : Sq} (g : ACell → ACell)
    (hsq : ∀ c, (g c).sq = c.sq) (hlvl : ∀ c, (g c).lvl = c.lvl)
    (hrf : ∀ c, (g c).info.refineFlag = c.info.refineFlag) :
    effCheckB (L.map g) p = effCheckB L p := by
  have heff : ∀ c, eff (g c) = eff c := by
    intro c; unfold eff; rw [hlvl, hrf]
  unfold effCheckB
  rw [List.all_map]
  congr 1
  funext q
  simp [Function.comp, hsq, heff]

theorem siblingsFlaggedB_spec {A : List ACell} {p : Sq} :
    siblingsFlaggedB A p = true ↔
      ∀ i < 2, ∀ j < 2, ∃ m ∈ A, m.sq = p.child i j ∧
        m.info.coarsenFlag = true ∧ m.info.refineFlag = false := by
  unfold siblingsFlaggedB
  simp [List.all_eq_true, List.any_eq_true, Bool.and_eq_true, decide_eq_true_eq,
    Bool.not_eq_true', and_assoc]

theorem keepCoarsenB_spec {A : List ACell} {c : ACell} :
    keepCoarsenB A c = true ↔
      0 < c.lvl ∧ siblingsFlaggedB A ⟨c.lvl - 1, c.x / 2, c.y / 2⟩ = true ∧
        effCheckB A ⟨c.lvl - 1, c.x / 2, c.y / 2⟩ = true := by
  unfold keepCoarsenB groupEligibleB
  simp [Bool.and_eq_true, decide_eq_true_eq, and_assoc]

/-- A sibling of `c` (a cell sitting at a child position of `c`'s parent) has
the same parent position as `c`. -/
theorem sibling_parent_pos {c m : ACell} {i j : Nat} (hi : i < 2) (hj : j < 2)
    (hl : 0 < c.lvl)
    (hm : m.sq = Sq.child ⟨c.lvl - 1, c.x / 2, c.y / 2⟩ i j) :
    m.lvl = c.lvl ∧ m.x / 2 = c.x / 2 ∧ m.y / 2 = c.y / 2 ∧ 0 < m.lvl := by
  have h1 : m.sq.lvl = c.lvl - 1 + 1 := by rw [hm]; rfl
  have h2 : m.sq.x = 2 * (c.x / 2) + i := by rw [hm]; rfl
  have h3 : m.sq.y = 2 * (c.y / 2) + j := by rw [hm]; rfl
  have e1 : m.sq.lvl = m.lvl := rfl
  have e2 : m.sq.x = m.x := rfl
  have e3 : m.sq.y = m.y := rfl
  rw [e1] at h1; rw [e2] at h2; rw [e3] at h3
  refine ⟨by omega, by omega, by omega, by omega⟩

theorem allLeavesB_spec {a b c d : QT} (h : allLeavesB a b c d = true) :
    (∃ ia, a = .leaf ia) ∧ (∃ ib, b = .leaf ib) ∧ (∃ ic, c = .leaf ic) ∧
      ∃ idd, d = .leaf idd := by
  cases a <;> cases b <;> cases c <;> cases d <;> simp_all [allLeavesB]

theorem island_go_depth (s : Nat) (A : List ACell) (t : QT) :
    ∀ l x y, depthQ (island_go s A t l x y) = depthQ t := by
  induction t with
  | leaf i =>
      intro l x y
      simp only [island_go]
      split <;> rfl
  | node i a b c d iha ihb ihc ihd =>
      intro l x y
      simp only [island_go]
      split
      · rename_i hcond
        rw [Bool.and_eq_true, Bool.and_eq_true] at hcond
        rcases allLeavesB_spec hcond.1.1 with ⟨⟨ia, rfl⟩, ⟨ib, rfl⟩, ⟨ic, rfl⟩, ⟨idd, rfl⟩⟩
        rfl
      · simp only [depthQ, iha, ihb, ihc, ihd]

theorem eliminate_refined_islands_depth (s : Nat) (t : QT) :
    depthQ (eliminate_refined_islands s t) = depthQ t :=
  island_go_depth s (acells t) t 0 0 0

theorem sqlist_setCoarsenLeaf_leaf (i : CellInfo) (l x y : Nat) :
    (active_cells (setCoarsenLeaf (.leaf i)) l x y).map ACell.sq =
      (active_cells (.leaf i) l x y).map ACell.sq := rfl

theorem sqlist_island_go (s : Nat) (A : List ACell) (t : QT) :
    ∀ l x y, (active_cells (island_go s A t l x y) l x y).map ACell.sq =
      (active_cells t l x y).map ACell.sq := by
  induction t with
  | leaf i =>
      intro l x y
      simp only [island_go]
      split <;> rfl
  | node i a b c d iha ihb ihc ihd =>
      intro l x y
      simp only [island_go]
      split
      · rename_i hcond
        rw [Bool.and_eq_true, Bool.and_eq_true] at hcond
        rcases allLeavesB_spec hcond.1.1 with ⟨⟨ia, rfl⟩, ⟨ib, rfl⟩, ⟨ic, rfl⟩, ⟨idd, rfl⟩⟩
        rfl
      · simp only [active_cells, List.map_append, iha, ihb, ihc, ihd]

theorem sqlist_map_active (f : Nat → Nat → Nat → CellInfo → CellInfo) (t : QT) :
    (acells (map_active f t 0 0 0)).map ACell.sq = (acells t).map ACell.sq := by
  have h := active_cells_map_active f t 0 0 0
  show (active_cells (map_active f t 0 0 0) 0 0 0).map ACell.sq = _
  rw [h, List.map_map]
  rfl

theorem sqlist_smoothing_pass (s : Nat) (t : QT) :
    (acells (smoothing_pass s t)).map ACell.sq = (acells t).map ACell.sq := by
  unfold smoothing_pass fix_coarsen_flags dnpui_step coarsest_step patch_step
    unref_islands_step regularize
  rw [sqlist_map_active, sqlist_map_active, sqlist_map_active, sqlist_map_active,
    sqlist_map_active, sqlist_map_active]

theorem sqlist_prepare (s : Nat) (t : QT) :
    (acells (prepare_coarsening_and_refinement s t)).map ACell.sq =
      (acells t).map ACell.sq := by
  have hiter : ∀ k u, (acells ((smoothing_pass s)^[k] u)).map ACell.sq =
      (acells u).map ACell.sq := by
    intro k
    induction k with
    | zero => intro u; rfl
    | succ k ih =>
        intro u
        rw [Function.iterate_succ_apply', sqlist_smoothing_pass, ih]
  show (acells ((smoothing_pass s)^[n_flag_changes t] (eliminate_refined_islands s t))).map
      ACell.sq = _
  rw [hiter]
  exact sqlist_island_go s (acells t) t 0 0 0


theorem list_map_eq_self {α : Type} {f : α → α} :
    ∀ {l : List α}, l.map f = l → ∀ x ∈ l, f x = x := by
  intro l
  induction l with
  | nil => intro _ x hx; cases hx
  | cons a l ih =>
      intro h x hx
      simp only [List.map_cons, List.cons.injEq] at h
      rcases List.mem_cons.1 hx with rfl | hx'
      · exact h.1
      · exact ih h.2 x hx'


/-! ## Termination of the smoothing loop

Every sweep of the loop body only adds refine flags and only removes coarsen
flags.  `flagPhi` counts the remaining headroom; a pass that changes anything
at all moves it strictly down, so the loop reaches its fixed point within
`n_flag_changes` passes. -/

theorem flagPhi_map_active (f : Nat → Nat → Nat → CellInfo → CellInfo) (t : QT)
    (hmat : ∀ l x y i, (f l x y i).materialId = i.materialId)
    (hrf : ∀ l x y i, i.refineFlag = true → (f l x y i).refineFlag = true)
    (hcf : ∀ l x y i, (f l x y i).coarsenFlag = true → i.coarsenFlag = true) :
    flagPhi (acells (map_active f t 0 0 0)) ≤ flagPhi (acells t) ∧
      (map_active f t 0 0 0 ≠ t →
        flagPhi (acells (map_active f t 0 0 0)) < flagPhi (acells t)) := by
  have hmap : acells (map_active f t 0 0 0) = (acells t).map fun c =>
      ⟨c.lvl, c.x, c.y, f c.lvl c.x c.y c.info⟩ := active_cells_map_active f t 0 0 0
  have hpt : ∀ l x y (i : CellInfo),
      ((if (f l x y i).refineFlag then 0 else 1) +
        (if (f l x y i).coarsenFlag then 1 else 0) : Nat) ≤
      (if i.refineFlag then 0 else 1) + (if i.coarsenFlag then 1 else 0) := by
    intro l x y i
    have h1 := hrf l x y i
    have h2 := hcf l x y i
    cases hr : i.refineFlag <;> cases hc : i.coarsenFlag <;>
      cases hr2 : (f l x y i).refineFlag <;> cases hc2 : (f l x y i).coarsenFlag <;>
        simp_all
  have hps : ∀ l x y (i : CellInfo), f l x y i ≠ i →
      ((if (f l x y i).refineFlag then 0 else 1) +
        (if (f l x y i).coarsenFlag then 1 else 0) : Nat) <
      (if i.refineFlag then 0 else 1) + (if i.coarsenFlag then 1 else 0) := by
    intro l x y i hne
    have h0 := hmat l x y i
    have h1 := hrf l x y i
    have h2 := hcf l x y i
    obtain ⟨m2, r2, c2⟩ := i
    rcases hg : f l x y ⟨m2, r2, c2⟩ with ⟨m1, r1, c1⟩
    simp only at h0 h1 h2 ⊢
    cases r1 <;> cases r2 <;> cases c1 <;> cases c2 <;> simp_all <;> omega
  constructor
  · rw [hmap]
    unfold flagPhi
    rw [List.map_map]
    apply List.sum_le_sum
    intro c hc
    simpa using hpt c.lvl c.x c.y c.info
  · intro hne
    have hex : ∃ c ∈ acells t, f c.lvl c.x c.y c.info ≠ c.info := by
      by_contra hall
      push_neg at hall
      exact hne (map_active_id f t 0 0 0 hall)
    rcases hex with ⟨c0, hc0, hne0⟩
    rw [hmap]
    unfold flagPhi
    rw [List.map_map]
    apply List.sum_lt_sum
    · intro c hc
      simpa using hpt c.lvl c.x c.y c.info
    · exact ⟨c0, hc0, by simpa using hps c0.lvl c0.x c0.y c0.info hne0⟩

theorem flagPhi_regularize (s : Nat) (t : QT) :
    flagPhi (acells (regularize s t)) ≤ flagPhi (acells t) ∧
      (regularize s t ≠ t →
        flagPhi (acells (regularize s t)) < flagPhi (acells t)) :=
  flagPhi_map_active
    (fun l x y i => { i with refineFlag := i.refineFlag ||
      (victimB s (acells t) ⟨l, x, y, i⟩) }) t
    (fun _ _ _ _ => rfl) (fun _ _ _ _ h => by simp [h]) (fun _ _ _ _ h => h)

theorem flagPhi_unref_islands (s : Nat) (t : QT) :
    flagPhi (acells (unref_islands_step s t)) ≤ flagPhi (acells t) ∧
      (unref_islands_step s t ≠ t →
        flagPhi (acells (unref_islands_step s t)) < flagPhi (acells t)) :=
  flagPhi_map_active
    (fun l x y i => { i with refineFlag := i.refineFlag ||
      (hasSmoothing s eliminate_unrefined_islands &&
        !hasSmoothing s patch_level_1 && majorityRefinedB (acells t) ⟨l, x, y⟩) }) t
    (fun _ _ _ _ => rfl) (fun _ _ _ _ h => by simp [h]) (fun _ _ _ _ h => h)

theorem flagPhi_patch (s : Nat) (t : QT) :
    flagPhi (acells (patch_step s t)) ≤ flagPhi (acells t) ∧
      (patch_step s t ≠ t →
        flagPhi (acells (patch_step s t)) < flagPhi (acells t)) :=
  flagPhi_map_active
    (fun l x y i => { i with refineFlag := i.refineFlag ||
      (hasSmoothing s patch_level_1 && siblingRefinedB (acells t) ⟨l, x, y⟩) }) t
    (fun _ _ _ _ => rfl) (fun _ _ _ _ h => by simp [h]) (fun _ _ _ _ h => h)

theorem flagPhi_coarsest (s : Nat) (t : QT) :
    flagPhi (acells (coarsest_step s t)) ≤ flagPhi (acells t) ∧
      (coarsest_step s t ≠ t →
        flagPhi (acells (coarsest_step s t)) < flagPhi (acells t)) :=
  flagPhi_map_active
    (fun l _ _ i => { i with coarsenFlag := i.coarsenFlag &&
      !(hasSmoothing s coarsest_level_1 && decide (l = 1)) }) t
    (fun _ _ _ _ => rfl) (fun _ _ _ _ h => h)
    (fun l _ _ i h => by
      have h2 : (i.coarsenFlag &&
          !(hasSmoothing s coarsest_level_1 && decide (l = 1))) = true := h
      rw [Bool.and_eq_true] at h2
      exact h2.1)

theorem flagPhi_dnpui (s : Nat) (t : QT) :
    flagPhi (acells (dnpui_step s t)) ≤ flagPhi (acells t) ∧
      (dnpui_step s t ≠ t →
        flagPhi (acells (dnpui_step s t)) < flagPhi (acells t)) :=
  flagPhi_map_active
    (fun l x y i => { i with coarsenFlag := i.coarsenFlag &&
      !(hasSmoothing s do_not_produce_unrefined_islands &&
        majorityRefinedB (acells t) ⟨l, x, y⟩) }) t
    (fun _ _ _ _ => rfl) (fun _ _ _ _ h => h)
    (fun l x y i h => by
      have h2 : (i.coarsenFlag &&
          !(hasSmoothing s do_not_produce_unrefined_islands &&
            majorityRefinedB (acells t) ⟨l, x, y⟩)) = true := h
      rw [Bool.and_eq_true] at h2
      exact h2.1)

theorem flagPhi_fix (t : QT) :
    flagPhi (acells (fix_coarsen_flags t)) ≤ flagPhi (acells t) ∧
      (fix_coarsen_flags t ≠ t →
        flagPhi (acells (fix_coarsen_flags t)) < flagPhi (acells t)) :=
  flagPhi_map_active
    (fun l x y i => { i with coarsenFlag := i.coarsenFlag &&
      (keepCoarsenB (acells t) ⟨l, x, y, i⟩) }) t
    (fun _ _ _ _ => rfl) (fun _ _ _ _ h => h)
    (fun l x y i h => by
      have h2 : (i.coarsenFlag && keepCoarsenB (acells t) ⟨l, x, y, i⟩) = true := h
      rw [Bool.and_eq_true] at h2
      exact h2.1)

theorem flagPhi_comp {F G : QT → QT}
    (hF : ∀ u, flagPhi (acells (F u)) ≤ flagPhi (acells u) ∧
      (F u ≠ u → flagPhi (acells (F u)) < flagPhi (acells u)))
    (hG : ∀ u, flagPhi (acells (G u)) ≤ flagPhi (acells u) ∧
      (G u ≠ u → flagPhi (acells (G u)) < flagPhi (acells u))) :
    ∀ u, flagPhi (acells (G (F u))) ≤ flagPhi (acells u) ∧
      (G (F u) ≠ u → flagPhi (acells (G (F u))) < flagPhi (acells u)) := by
  intro u
  constructor
  · exact le_trans (hG (F u)).1 (hF u).1
  · intro hne
    by_cases hFu : F u = u
    · rw [hFu] at hne ⊢
      exact (hG u).2 hne
    · exact lt_of_le_of_lt (hG (F u)).1 ((hF u).2 hFu)

theorem flagPhi_smoothing_pass (s : Nat) :
    ∀ u, flagPhi (acells (smoothing_pass s u)) ≤ flagPhi (acells u) ∧
      (smoothing_pass s u ≠ u →
        flagPhi (acells (smoothing_pass s u)) < flagPhi (acells u)) := by
  have h12 := flagPhi_comp (flagPhi_regularize s) (flagPhi_unref_islands s)
  have h13 := flagPhi_comp h12 (flagPhi_patch s)
  have h14 := flagPhi_comp h13 (flagPhi_coarsest s)
  have h15 := flagPhi_comp h14 (flagPhi_dnpui s)
  have h16 := flagPhi_comp h15 flagPhi_fix
  exact h16

theorem iterate_fixed_of_flagPhi (f : QT → QT)
    (h : ∀ u, flagPhi (acells (f u)) ≤ flagPhi (acells u) ∧
      (f u ≠ u → flagPhi (acells (f u)) < flagPhi (acells u))) :
    ∀ m u, flagPhi (acells u) ≤ m → f (f^[m] u) = f^[m] u := by
  intro m
  induction m with
  | zero =>
      intro u hu
      by_contra hne
      have := (h u).2 hne
      omega
  | succ m ih =>
      intro u hu
      by_cases hf : f u = u
      · have hfix : f^[m + 1] u = u := Function.iterate_fixed hf (m + 1)
        rw [hfix]
        exact hf
      · have hlt := (h u).2 hf
        rw [Function.iterate_succ_apply]
        exact ih (f u) (by omega)

theorem flagPhi_le_two_len (L : List ACell) : flagPhi L ≤ 2 * L.length := by
  unfold flagPhi
  induction L with
  | nil => simp
  | cons c L ih =>
      simp only [List.map_cons, List.sum_cons, List.length_cons]
      have hc : ((if c.info.refineFlag then 0 else 1) +
          (if c.info.coarsenFlag then 1 else 0) : Nat) ≤ 2 := by
        cases c.info.refineFlag <;> cases c.info.coarsenFlag <;> simp
      omega

/-- The smoothing loop reaches its fixed point within `n_flag_changes` passes
(internal form, shared by the development). -/
theorem prepare_pass_fixed (s : Nat) (t : QT) :
    smoothing_pass s (prepare_coarsening_and_refinement s t) =
      prepare_coarsening_and_refinement s t := by
  have hlen : (acells (eliminate_refined_islands s t)).length =
      (acells t).length := by
    have h1 := congrArg List.length (sqlist_island_go s (acells t) t 0 0 0)
    simpa using h1
  have h2 := flagPhi_le_two_len (acells (eliminate_refined_islands s t))
  have hb : flagPhi (acells (eliminate_refined_islands s t)) ≤ n_flag_changes t := by
    unfold n_flag_changes
    omega
  exact iterate_fixed_of_flagPhi _ (flagPhi_smoothing_pass s) (n_flag_changes t) _ hb

/-- C5 (amended): `prepare_coarsening_and_refinement` terminates for every
triangulation and every finite initial flag assignment: the iterated
regularization+smoothing loop reaches a fixed point — one further full
`smoothing_pass` changes no cell's flags — within `n_flag_changes t` passes
(twice the number of active cells), because each pass only adds refine flags
and only removes coarsen flags, monotonically, over the finite set of cells.
By the counterexample, the spec's bound by the number of refinement levels
does not hold: the `eliminate_unrefined_islands` flagging cascades one cell
per pass. -/
theorem prepare_smoothing_fixed_point (s : Nat) (t : QT) :
    smoothing_pass s (prepare_coarsening_and_refinement s t) =
      prepare_coarsening_and_refinement s t :=
  prepare_pass_fixed s t

/-- C5 counterexample: on the corridor mesh `c5mesh` with the
`eliminate_unrefined_islands` smoothing, the regularization+smoothing loop
has not reached a fixed point after `n_levels c5mesh` passes — the island
cascade advances only one corridor cell per pass, so the flags still change
in pass `n_levels c5mesh + 1` — refuting the claimed bound by the number of
refinement levels. -/
theorem prepare_levels_bound_cex :
    (smoothing_pass eliminate_unrefined_islands)^[n_levels c5mesh + 1]
        (eliminate_refined_islands eliminate_unrefined_islands c5mesh) ≠
      (smoothing_pass eliminate_unrefined_islands)^[n_levels c5mesh]
        (eliminate_refined_islands eliminate_unrefined_islands c5mesh) := by
  decide

/-- At a fixed point of the full pass, every individual sweep is already the
identity: the flag measure cannot drop anywhere along the chain. -/
theorem pass_all_steps_fixed (s : Nat) (u : QT) (hfix : smoothing_pass s u = u) :
    regularize s u = u ∧ unref_islands_step s u = u ∧ patch_step s u = u ∧
      coarsest_step s u = u ∧ dnpui_step s u = u ∧ fix_coarsen_flags u = u := by
  have hPhi : flagPhi (acells (smoothing_pass s u)) = flagPhi (acells u) := by
    rw [hfix]
  have c5 : ∀ v, flagPhi (acells (fix_coarsen_flags v)) ≤ flagPhi (acells v) :=
    fun v => (flagPhi_fix v).1
  have c4 : ∀ v, flagPhi (acells (fix_coarsen_flags (dnpui_step s v))) ≤
      flagPhi (acells v) := fun v => le_trans (c5 _) (flagPhi_dnpui s v).1
  have c3 : ∀ v, flagPhi (acells (fix_coarsen_flags (dnpui_step s
      (coarsest_step s v)))) ≤ flagPhi (acells v) :=
    fun v => le_trans (c4 _) (flagPhi_coarsest s v).1
  have c2 : ∀ v, flagPhi (acells (fix_coarsen_flags (dnpui_step s (coarsest_step s
      (patch_step s v))))) ≤ flagPhi (acells v) :=
    fun v => le_trans (c3 _) (flagPhi_patch s v).1
  have c1 : ∀ v, flagPhi (acells (fix_coarsen_flags (dnpui_step s (coarsest_step s
      (patch_step s (unref_islands_step s v)))))) ≤ flagPhi (acells v) :=
    fun v => le_trans (c2 _) (flagPhi_unref_islands s v).1
  have h1 : regularize s u = u := by
    by_contra hne
    have hlt := (flagPhi_regularize s u).2 hne
    have hle := c1 (regularize s u)
    have hP : flagPhi (acells (fix_coarsen_flags (dnpui_step s (coarsest_step s
        (patch_step s (unref_islands_step s (regularize s u))))))) =
        flagPhi (acells u) := hPhi
    omega
  have e1 : smoothing_pass s u = fix_coarsen_flags (dnpui_step s (coarsest_step s
      (patch_step s (unref_islands_step s u)))) := by
    show fix_coarsen_flags (dnpui_step s (coarsest_step s (patch_step s
      (unref_islands_step s (regularize s u))))) = _
    rw [h1]
  have h2 : unref_islands_step s u = u := by
    by_contra hne
    have hlt := (flagPhi_unref_islands s u).2 hne
    have hle := c2 (unref_islands_step s u)
    have hP : flagPhi (acells (fix_coarsen_flags (dnpui_step s (coarsest_step s
        (patch_step s (unref_islands_step s u)))))) = flagPhi (acells u) := by
      rw [← e1]
      exact hPhi
    omega
  have e2 : smoothing_pass s u = fix_coarsen_flags (dnpui_step s (coarsest_step s
      (patch_step s u))) := by
    rw [e1, h2]
  have h3 : patch_step s u = u := by
    by_contra hne
    have hlt := (flagPhi_patch s u).2 hne
    have hle := c3 (patch_step s u)
    have hP : flagPhi (acells (fix_coarsen_flags (dnpui_step s (coarsest_step s
        (patch_step s u))))) = flagPhi (acells u) := by
      rw [← e2]
      exact hPhi
    omega
  have e3 : smoothing_pass s u = fix_coarsen_flags (dnpui_step s
      (coarsest_step s u)) := by
    rw [e2, h3]
  have h4 : coarsest_step s u = u := by
    by_contra hne
    have hlt := (flagPhi_coarsest s u).2 hne
    have hle := c4 (coarsest_step s u)
    have hP : flagPhi (acells (fix_coarsen_flags (dnpui_step s
        (coarsest_step s u)))) = flagPhi (acells u) := by
      rw [← e3]
      exact hPhi
    omega
  have e4 : smoothing_pass s u = fix_coarsen_flags (dnpui_step s u) := by
    rw [e3, h4]
  have h5 : dnpui_step s u = u := by
    by_contra hne
    have hlt := (flagPhi_dnpui s u).2 hne
    have hle := c5 (dnpui_step s u)
    have hP : flagPhi (acells (fix_coarsen_flags (dnpui_step s u))) =
        flagPhi (acells u) := by
      rw [← e4]
      exact hPhi
    omega
  have e5 : smoothing_pass s u = fix_coarsen_flags u := by
    rw [e4, h5]
  have h6 : fix_coarsen_flags u = u := by
    rw [← e5]
    exact hfix
  exact ⟨h1, h2, h3, h4, h5, h6⟩

theorem regularize_prepare (s : Nat) (t : QT) :
    regularize s (prepare_coarsening_and_refinement s t) =
      prepare_coarsening_and_refinement s t :=
  (pass_all_steps_fixed s _ (prepare_pass_fixed s t)).1

theorem fix_prepare (s : Nat) (t : QT) :
    fix_coarsen_flags (prepare_coarsening_and_refinement s t) =
      prepare_coarsening_and_refinement s t :=
  (pass_all_steps_fixed s _ (prepare_pass_fixed s t)).2.2.2.2.2

/-- At the fixed point reached by `prepare_coarsening_and_refinement`, no
propagation constraint is violated: an unflagged cell never has a neighbor
(along the active propagation relation) whose effective level exceeds its own
level by two or more — otherwise the regularization sweep would still flag
it. -/
theorem prepare_no_violations (s : Nat) (t : QT) :
    ∀ c ∈ acells (prepare_coarsening_and_refinement s t),
      c.info.refineFlag = false →
        ∀ d ∈ acells (prepare_coarsening_and_refinement s t),
          relA s c.sq d.sq → eff d ≤ c.lvl + 1 := by
  intro c hc hcf d hd hrel
  by_contra hgt
  have hreg := regularize_prepare s t
  have hmap : acells (regularize s (prepare_coarsening_and_refinement s t)) =
      (acells (prepare_coarsening_and_refinement s t)).map (fun c =>
        ⟨c.lvl, c.x, c.y, { c.info with refineFlag := c.info.refineFlag ||
          (victimB s (acells (prepare_coarsening_and_refinement s t)) c) }⟩) :=
    acells_regularize s _
  rw [hreg] at hmap
  have hpt := list_map_eq_self hmap.symm c hc
  have hrf := congrArg (fun a => a.info.refineFlag) hpt
  simp only at hrf
  have hvic : victimB s (acells (prepare_coarsening_and_refinement s t)) c = true :=
    victimB_spec.2 ⟨d, hd, hrel, by omega⟩
  rw [hcf, hvic] at hrf
  simp at hrf

/-- After `prepare_coarsening_and_refinement`, every cell still carrying a
coarsen flag belongs to an eligible sibling group. -/
theorem prepare_coarsen_keep (s : Nat) (t : QT) :
    ∀ c ∈ acells (prepare_coarsening_and_refinement s t),
      c.info.coarsenFlag = true →
        keepCoarsenB (acells (prepare_coarsening_and_refinement s t)) c = true := by
  intro c hc hcf
  have hfix := fix_prepare s t
  have hmap : acells (fix_coarsen_flags (prepare_coarsening_and_refinement s t)) =
      (acells (prepare_coarsening_and_refinement s t)).map (fun c =>
        ⟨c.lvl, c.x, c.y,
          { c.info with coarsenFlag := c.info.coarsenFlag &&
            keepCoarsenB (acells (prepare_coarsening_and_refinement s t)) c }⟩) :=
    acells_fix_coarsen_flags _
  rw [hfix] at hmap
  have hpt := list_map_eq_self hmap.symm c hc
  obtain ⟨lv, xx, yy, m, rf, cf⟩ := c
  simp only at hcf
  subst hcf
  simp only [ACell.mk.injEq, CellInfo.mk.injEq, true_and, and_true] at hpt
  simpa using hpt

/-- C2: coarsening is all-or-nothing per sibling group.  After
`prepare_coarsening_and_refinement` (which calls `fix_coarsen_flags`), every
active cell still carrying a coarsen flag is a non-coarse cell all four of
whose siblings (the cells at the child positions of its parent) are present,
carry the coarsen flag, and carry no refine flag.  In particular — second
conjunct, the claim's scenario — if only 3 of 4 children of a parent are
flagged for coarsening, `fix_coarsen_flags` leaves zero coarsen flags on the
sibling group. -/
theorem coarsening_all_or_nothing :
    (∀ (s : Nat) (t : QT),
      ∀ c ∈ acells (prepare_coarsening_and_refinement s t),
        c.info.coarsenFlag = true →
          0 < c.lvl ∧ ∀ i < 2, ∀ j < 2,
            ∃ m ∈ acells (prepare_coarsening_and_refinement s t),
              m.sq = Sq.child ⟨c.lvl - 1, c.x / 2, c.y / 2⟩ i j ∧
                m.info.coarsenFlag = true ∧ m.info.refineFlag = false) ∧
    (acells (fix_coarsen_flags c2mesh)).all (fun c => !c.info.coarsenFlag) = true := by
  constructor
  · intro s t c hc hcf
    have hkeep := prepare_coarsen_keep s t c hc hcf
    rcases keepCoarsenB_spec.1 hkeep with ⟨hl, hsib, _⟩
    exact ⟨hl, siblingsFlaggedB_spec.1 hsib⟩
  · decide

/-! ## Transfer of balance along structure-preserving sweeps -/

theorem lvl_balanced_of_sqlist_eq {r : Sq → Sq → Prop} {L₁ L₂ : List ACell}
    (h : L₁.map ACell.sq = L₂.map ACell.sq) (hb : lvl_balanced r L₂) :
    lvl_balanced r L₁ := by
  intro c hc d hd hr
  have hcm : c.sq ∈ L₂.map ACell.sq := by
    rw [← h]; exact List.mem_map.2 ⟨c, hc, rfl⟩
  have hdm : d.sq ∈ L₂.map ACell.sq := by
    rw [← h]; exact List.mem_map.2 ⟨d, hd, rfl⟩
  rcases List.mem_map.1 hcm with ⟨c₂, hc₂, hcsq⟩
  rcases List.mem_map.1 hdm with ⟨d₂, hd₂, hdsq⟩
  have hcl : c.lvl = c₂.lvl := by
    have := congrArg Sq.lvl hcsq; exact this.symm
  have hdl : d.lvl = d₂.lvl := by
    have := congrArg Sq.lvl hdsq; exact this.symm
  rw [hcl, hdl]
  exact hb c₂ hc₂ d₂ hd₂ (by rw [hcsq, hdsq]; exact hr)

/-- At the fixed point of the smoothing loop, one-irregularity of the levels
implies one-irregularity of the effective levels. -/
theorem eff_balanced_of_no_violations {s : Nat} {r : Sq → Sq → Prop}
    {L : List ACell}
    (hsub : ∀ p q, r p q → relA s p q) (hsymm : ∀ p q, r p q → r q p)
    (hbal : lvl_balanced r L)
    (hnv : ∀ c ∈ L, c.info.refineFlag = false →
      ∀ d ∈ L, relA s c.sq d.sq → eff d ≤ c.lvl + 1) :
    eff_balanced r L := by
  intro c hc d hd hr
  rcases hdr : d.info.refineFlag with _ | _
  · -- d unflagged: c's effective level is bounded by the no-violation fact at d
    have := hnv d hd hdr c hc (hsub _ _ (hsymm _ _ hr))
    rw [eff_of_unflag hdr]
    exact this
  · -- d flagged: its effective level rose by one, plain balance suffices
    have h1 := hbal c hc d hd hr
    have h2 := eff_le c
    rw [eff_of_flag hdr]
    omega

theorem coarsenGroupB_spec {A : List ACell} {p : Sq} {a b c d : QT}
    (h : coarsenGroupB A p a b c d = true) :
    ∃ ia ib ic idd, a = .leaf ia ∧ b = .leaf ib ∧ c = .leaf ic ∧ d = .leaf idd ∧
      ia.coarsenFlag = true ∧ ia.refineFlag = false ∧
      ib.coarsenFlag = true ∧ ib.refineFlag = false ∧
      ic.coarsenFlag = true ∧ ic.refineFlag = false ∧
      idd.coarsenFlag = true ∧ idd.refineFlag = false ∧
      effCheckB A p = true := by
  cases a <;> cases b <;> cases c <;> cases d <;>
    simp_all [coarsenGroupB, Bool.and_eq_true, Bool.not_eq_true']

theorem mem_execute_coarsening_go (A : List ACell) (t : QT) :
    ∀ l x y, ∀ n ∈ active_cells (execute_coarsening_go A t l x y) l x y,
      n ∈ active_cells t l x y ∨
        (n.info.refineFlag = false ∧ n.info.coarsenFlag = false ∧
          effCheckB A n.sq = true ∧
          ∀ i j, i ≤ 1 → j ≤ 1 →
            ∃ m ∈ active_cells t l x y, m.sq = n.sq.child i j ∧
              m.info.coarsenFlag = true ∧ m.info.refineFlag = false) := by
  induction t with
  | leaf i =>
      intro l x y n hn
      left
      simpa [execute_coarsening_go] using hn
  | node i a b c d iha ihb ihc ihd =>
      intro l x y n hn
      simp only [execute_coarsening_go] at hn
      split at hn
      · rename_i hcond
        rcases coarsenGroupB_spec hcond with
          ⟨ia, ib, ic, idd, rfl, rfl, rfl, rfl, ha1, ha2, hb1, hb2, hc1, hc2, hd1, hd2, heck⟩
        simp only [active_cells, List.mem_singleton] at hn
        subst hn
        right
        refine ⟨rfl, rfl, heck, ?_⟩
        intro i' j' hi' hj'
        interval_cases i' <;> interval_cases j'
        · refine ⟨⟨l + 1, 2 * x, 2 * y, ia⟩, by simp [active_cells], ?_, ha1, ha2⟩
          show Sq.mk _ _ _ = _
          simp [Sq.child, ACell.sq]
        · refine ⟨⟨l + 1, 2 * x, 2 * y + 1, ic⟩, by simp [active_cells], ?_, hc1, hc2⟩
          show Sq.mk _ _ _ = _
          simp [Sq.child, ACell.sq]
        · refine ⟨⟨l + 1, 2 * x + 1, 2 * y, ib⟩, by simp [active_cells], ?_, hb1, hb2⟩
          show Sq.mk _ _ _ = _
          simp [Sq.child, ACell.sq]
        · refine ⟨⟨l + 1, 2 * x + 1, 2 * y + 1, idd⟩, by simp [active_cells], ?_, hd1, hd2⟩
          show Sq.mk _ _ _ = _
          simp [Sq.child, ACell.sq]
      · simp only [active_cells, List.mem_append] at hn
        have lift : ∀ (sub : List ACell) (full : List ACell),
            (∀ m ∈ sub, m ∈ full) →
            (n ∈ sub ∨
              (n.info.refineFlag = false ∧ n.info.coarsenFlag = false ∧
                effCheckB A n.sq = true ∧
                ∀ i j, i ≤ 1 → j ≤ 1 →
                  ∃ m ∈ sub, m.sq = n.sq.child i j ∧
                    m.info.coarsenFlag = true ∧ m.info.refineFlag = false)) →
            (n ∈ full ∨
              (n.info.refineFlag = false ∧ n.info.coarsenFlag = false ∧
                effCheckB A n.sq = true ∧
                ∀ i j, i ≤ 1 → j ≤ 1 →
                  ∃ m ∈ full, m.sq = n.sq.child i j ∧
                    m.info.coarsenFlag = true ∧ m.info.refineFlag = false)) := by
          intro sub full hsf h
          rcases h with h | ⟨h1, h2, h3, h4⟩
          · exact Or.inl (hsf n h)
          · refine Or.inr ⟨h1, h2, h3, ?_⟩
            intro i j hi hj
            rcases h4 i j hi hj with ⟨m, hm, hms, hmc, hmr⟩
            exact ⟨m, hsf m hm, hms, hmc, hmr⟩
        rcases hn with ((hn | hn) | hn) | hn
        · exact lift _ _ (fun m hm => by simp [active_cells, hm]) (iha _ _ _ n hn)
        · exact lift _ _ (fun m hm => by simp [active_cells, hm]) (ihb _ _ _ n hn)
        · exact lift _ _ (fun m hm => by simp [active_cells, hm]) (ihc _ _ _ n hn)
        · exact lift _ _ (fun m hm => by simp [active_cells, hm]) (ihd _ _ _ n hn)

theorem lvl_of_sq_child {m c : ACell} {i j : Nat} (h : m.sq = c.sq.child i j) :
    m.lvl = c.lvl + 1 := by
  have h' := congrArg Sq.lvl h
  simpa [ACell.sq, Sq.child] using h'

/-- Executing the coarsening preserves one-irregularity of the effective
levels: removed sibling groups were explicitly checked against the
level-difference invariant post-removal. -/
theorem eff_balanced_execute_coarsening {r : Sq → Sq → Prop}
    (hsymm : ∀ p q, r p q → r q p) (hrT : ∀ p q, r p q → sqT p q)
    (hsplit : ∀ p q, r q p → ∃ i j, i ≤ 1 ∧ j ≤ 1 ∧ r q (p.child i j))
    (P : QT) (hbal : lvl_balanced r (acells P))
    (heff : eff_balanced r (acells P)) :
    eff_balanced r (acells (execute_coarsening P)) := by
  intro c hc d hd hr
  have hc' := mem_execute_coarsening_go (acells P) P 0 0 0 c hc
  have hd' := mem_execute_coarsening_go (acells P) P 0 0 0 d hd
  rcases hc' with hcold | ⟨hcrf, hccf, hceff, hcch⟩ <;>
    rcases hd' with hdold | ⟨hdrf, hdcf, hdeff, hdch⟩
  · -- both cells survived untouched
    exact heff c hcold d hdold hr
  · -- c survived, d is a reactivated parent: d's own eligibility check bounds c
    have h1 := effCheckB_spec hdeff c hcold (hrT _ _ hr)
    rw [eff_of_unflag hdrf]
    exact h1
  · -- c is a reactivated parent, d survived: a child of c related to d gives
    -- the lower bound via plain balance
    rcases hsplit _ _ (hsymm _ _ hr) with ⟨i, j, hi, hj, hrdc⟩
    rcases hcch i j hi hj with ⟨m, hm, hms, hmc, hmr⟩
    have hrmd : r m.sq d.sq := by
      rw [hms]; exact hsymm _ _ hrdc
    have h1 := hbal m hm d hdold hrmd
    have hml : m.lvl = c.lvl + 1 := lvl_of_sq_child hms
    have h2 := eff_lvl_le d
    rw [eff_of_unflag hcrf]
    omega
  · -- both are reactivated parents: a child of c touches d, and d's
    -- eligibility check bounds its level
    have hTdc : sqT d.sq c.sq := sqT_symm (hrT _ _ hr)
    rcases sqT_split hTdc with ⟨i, j, hi, hj, hTdm⟩
    rcases hcch i j hi hj with ⟨m, hm, hms, hmc, hmr⟩
    have hTmd : sqT m.sq d.sq := by
      rw [hms]; exact sqT_symm hTdm
    have h1 := effCheckB_spec hdeff m hm hTmd
    have hml : m.lvl = c.lvl + 1 := lvl_of_sq_child hms
    have h2 : eff m = m.lvl := eff_of_unflag hmr
    have h3 : d.sq.lvl = d.lvl := rfl
    rw [eff_of_unflag hcrf, eff_of_unflag hdrf]
    omega

theorem acells_execute_refinement (t : QT) :
    ∀ l x y, active_cells (execute_refinement t) l x y =
      (active_cells t l x y).flatMap fun c =>
        if c.info.refineFlag then refined_children c else [c] := by
  induction t with
  | leaf i =>
      intro l x y
      rcases hf : i.refineFlag with _ | _
      · simp [execute_refinement, active_cells, hf]
      · simp [execute_refinement, active_cells, hf, refined_children, childInfo]
  | node i a b c d iha ihb ihc ihd =>
      intro l x y
      simp only [execute_refinement, active_cells, List.flatMap_append,
        iha, ihb, ihc, ihd]

/-- Every active cell after refinement is either an unflagged old active cell
or a child of a flagged one; its level is its parent's effective level. -/
theorem mem_execute_refinement_parent {P : QT} {n : ACell}
    (h : n ∈ acells (execute_refinement P)) :
    ∃ e ∈ acells P, n.lvl = eff e ∧
      (n.sq = e.sq ∨ ∃ i j, i ≤ 1 ∧ j ≤ 1 ∧ n.sq = e.sq.child i j) := by
  have h' : n ∈ (active_cells P 0 0 0).flatMap fun c =>
      if c.info.refineFlag then refined_children c else [c] := by
    rw [← acells_execute_refinement P 0 0 0]
    exact h
  rcases List.mem_flatMap.1 h' with ⟨e, he, hn⟩
  refine ⟨e, he, ?_⟩
  rcases hf : e.info.refineFlag with _ | _
  · rw [if_neg (by simp [hf])] at hn
    simp only [List.mem_singleton] at hn
    subst hn
    rw [eff_of_unflag hf]
    exact ⟨rfl, Or.inl rfl⟩
  · rw [if_pos hf] at hn
    rw [eff_of_flag hf]
    simp only [refined_children, List.mem_cons, List.mem_singleton] at hn
    rcases hn with rfl | rfl | rfl | rfl | h0
    · exact ⟨rfl, Or.inr ⟨0, 0, by omega, by omega, rfl⟩⟩
    · exact ⟨rfl, Or.inr ⟨1, 0, by omega, by omega, rfl⟩⟩
    · exact ⟨rfl, Or.inr ⟨0, 1, by omega, by omega, rfl⟩⟩
    · exact ⟨rfl, Or.inr ⟨1, 1, by omega, by omega, rfl⟩⟩
    · cases h0

/-- Executing the refinement of an effective-level-balanced flag set yields a
balanced mesh. -/
theorem lvl_balanced_execute_refinement {r : Sq → Sq → Prop}
    (hlchild : ∀ p q i j, i ≤ 1 → j ≤ 1 → r (p.child i j) q → r p q)
    (hrchild : ∀ p q i j, i ≤ 1 → j ≤ 1 → r p (q.child i j) → r p q)
    (P : QT) (heff : eff_balanced r (acells P)) :
    lvl_balanced r (acells (execute_refinement P)) := by
  intro n₁ h₁ n₂ h₂ hr
  rcases mem_execute_refinement_parent h₁ with ⟨e₁, he₁, hl₁, hp₁⟩
  rcases mem_execute_refinement_parent h₂ with ⟨e₂, he₂, hl₂, hp₂⟩
  have hre : r e₁.sq e₂.sq := by
    have step1 : r e₁.sq n₂.sq := by
      rcases hp₁ with hq | ⟨i, j, hi, hj, hq⟩
      · rw [← hq]; exact hr
      · exact hlchild _ _ i j hi hj (by rw [← hq]; exact hr)
    rcases hp₂ with hq | ⟨i, j, hi, hj, hq⟩
    · rw [← hq]; exact step1
    · exact hrchild _ _ i j hi hj (by rw [← hq]; exact step1)
  have := heff e₁ he₁ e₂ he₂ hre
  omega

theorem lvl_balanced_ecr_generic (s : Nat) (t : QT) (r : Sq → Sq → Prop)
    (hsub : ∀ p q, r p q → relA s p q) (hsymm : ∀ p q, r p q → r q p)
    (hrT : ∀ p q, r p q → sqT p q)
    (hsplit : ∀ p q, r q p → ∃ i j, i ≤ 1 ∧ j ≤ 1 ∧ r q (p.child i j))
    (hlchild : ∀ p q i j, i ≤ 1 → j ≤ 1 → r (p.child i j) q → r p q)
    (hrchild : ∀ p q i j, i ≤ 1 → j ≤ 1 → r p (q.child i j) → r p q)
    (hbal : lvl_balanced r (acells t)) :
    lvl_balanced r (acells (execute_coarsening_and_refinement s t)) := by
  have hbalP : lvl_balanced r (acells (prepare_coarsening_and_refinement s t)) :=
    lvl_balanced_of_sqlist_eq (sqlist_prepare s t) hbal
  have heffP : eff_balanced r (acells (prepare_coarsening_and_refinement s t)) :=
    eff_balanced_of_no_violations hsub hsymm hbalP (prepare_no_violations s t)
  have heffC := eff_balanced_execute_coarsening hsymm hrT hsplit _ hbalP heffP
  have href := lvl_balanced_execute_refinement hlchild hrchild _ heffC
  unfold execute_coarsening_and_refinement clear_all_flags
  exact lvl_balanced_of_sqlist_eq (sqlist_map_active _ _) href

/-- C1 (amended): after every `execute_coarsening_and_refinement` on a mesh
satisfying the invariant, active cells sharing a piece of a face have levels
differing by at most one, unconditionally; active cells sharing merely a
vertex enjoy the same bound when (and, by the counterexample, in general only
when) the `limit_level_difference_at_vertices` smoothing is selected. -/
theorem one_irregular_invariant_after_ecr (s : Nat) (t : QT) :
    (face_balanced t → face_balanced (execute_coarsening_and_refinement s t)) ∧
    (hasSmoothing s limit_level_difference_at_vertices = true →
      vertex_balanced t → vertex_balanced (execute_coarsening_and_refinement s t)) := by
  constructor
  · intro hb
    exact lvl_balanced_ecr_generic s t sqF (fun p q h => Or.inl h)
      (fun p q => sqF_symm) (fun p q => sqF_to_sqT) (fun p q h => sqF_split h)
      (fun p q i j hi hj h => sqF_child_left hi hj h)
      (fun p q i j hi hj h => sqF_child_right hi hj h) hb
  · intro hbit hb
    exact lvl_balanced_ecr_generic s t sqT (fun p q h => Or.inr ⟨hbit, h⟩)
      (fun p q => sqT_symm) (fun p q h => h) (fun p q h => sqT_split h)
      (fun p q i j hi hj h => sqT_child_left hi hj h)
      (fun p q i j hi hj h => sqT_child_right hi hj h) hb

theorem islandAppliesB_off {s : Nat} (h : coarsening_islands_off s) (p : Sq) :
    islandAppliesB s p = false := by
  unfold coarsening_islands_off at h
  unfold hasSmoothing at h
  simp only [bne_eq_false_iff_eq] at h
  have h256 : s &&& eliminate_refined_inner_islands = 0 := by
    have e1 : eliminate_refined_inner_islands =
        (eliminate_refined_inner_islands ||| eliminate_refined_boundary_islands) &&&
          eliminate_refined_inner_islands := by decide
    rw [e1, ← Nat.and_assoc, h]
    decide
  have h512 : s &&& eliminate_refined_boundary_islands = 0 := by
    have e1 : eliminate_refined_boundary_islands =
        (eliminate_refined_inner_islands ||| eliminate_refined_boundary_islands) &&&
          eliminate_refined_boundary_islands := by decide
    rw [e1, ← Nat.and_assoc, h]
    decide
  unfold islandAppliesB hasSmoothing
  rw [h256, h512]
  simp

theorem island_go_id {s : Nat} (A : List ACell) (t : QT)
    (h : coarsening_islands_off s) : ∀ l x y, island_go s A t l x y = t := by
  induction t with
  | leaf i =>
      intro l x y
      simp [island_go, islandAppliesB_off h]
  | node i a b c d iha ihb ihc ihd =>
      intro l x y
      simp [island_go, islandAppliesB_off h, iha, ihb, ihc, ihd]

theorem regularize_id {s : Nat} {t : QT}
    (hf : ∀ c ∈ acells t, c.info.refineFlag = false)
    (hb : lvl_balanced (relA s) (acells t)) : regularize s t = t := by
  apply map_active_id
  intro c hc
  have hv : victimB s (acells t) c = false := by
    cases hvv : victimB s (acells t) c
    · rfl
    · exfalso
      rcases victimB_spec.1 hvv with ⟨d, hd, hrel, hle⟩
      have h1 := hb d hd c hc (relA_symm hrel)
      have h2 : eff d = d.lvl := eff_of_unflag (hf d hd)
      omega
  have hfc := hf c hc
  obtain ⟨lv, xx, yy, m, rf, cf⟩ := c
  simp only at hfc
  subst hfc
  simp only at hv
  simp [hv]

theorem fix_coarsen_flags_id {t : QT}
    (hc : ∀ c ∈ acells t, c.info.coarsenFlag = false) : fix_coarsen_flags t = t := by
  apply map_active_id
  intro c hcm
  have h := hc c hcm
  obtain ⟨lv, xx, yy, m, rf, cf⟩ := c
  simp only at h
  subst h
  simp

theorem execute_coarsening_go_id (A : List ACell) (t : QT) :
    ∀ l x y, (∀ c ∈ active_cells t l x y, c.info.coarsenFlag = false) →
      execute_coarsening_go A t l x y = t := by
  induction t with
  | leaf i => intro l x y _; rfl
  | node i a b c d iha ihb ihc ihd =>
      intro l x y h
      simp only [execute_coarsening_go]
      have hcond : coarsenGroupB A ⟨l, x, y⟩ a b c d = false := by
        cases hcc : coarsenGroupB A ⟨l, x, y⟩ a b c d
        · rfl
        · exfalso
          rcases coarsenGroupB_spec hcc with
            ⟨ia, _, _, _, rfl, _, _, _, ha1, _⟩
          have : (⟨l + 1, 2 * x, 2 * y, ia⟩ : ACell) ∈
              active_cells (QT.node i (.leaf ia) b c d) l x y := by
            simp [active_cells]
          have := h _ this
          simp only at this
          rw [this] at ha1
          cases ha1
      rw [hcond]
      simp only [Bool.false_eq_true, if_false]
      simp only [active_cells] at h
      rw [iha _ _ _ fun c hc => h c (by simp [hc]),
        ihb _ _ _ fun c hc => h c (by simp [hc]),
        ihc _ _ _ fun c hc => h c (by simp [hc]),
        ihd _ _ _ fun c hc => h c (by simp [hc])]

theorem execute_refinement_id (t : QT) :
    ∀ l x y, (∀ c ∈ active_cells t l x y, c.info.refineFlag = false) →
      execute_refinement t = t := by
  induction t with
  | leaf i =>
      intro l x y h
      have := h ⟨l, x, y, i⟩ (by simp [active_cells])
      simp only at this
      simp [execute_refinement, this]
  | node i a b c d iha ihb ihc ihd =>
      intro l x y h
      simp only [active_cells] at h
      simp only [execute_refinement]
      rw [iha (l + 1) (2 * x) (2 * y) fun c hc => h c (by simp [hc]),
        ihb (l + 1) (2 * x + 1) (2 * y) fun c hc => h c (by simp [hc]),
        ihc (l + 1) (2 * x) (2 * y + 1) fun c hc => h c (by simp [hc]),
        ihd (l + 1) (2 * x + 1) (2 * y + 1) fun c hc => h c (by simp [hc])]

theorem clear_all_flags_id {t : QT} (h : no_flags t) : clear_all_flags t = t := by
  apply map_active_id
  intro c hc
  have h1 := (h c hc).1
  have h2 := (h c hc).2
  obtain ⟨lv, xx, yy, m, rf, cf⟩ := c
  simp only at h1 h2
  subst h1
  subst h2
  rfl

/-- A smoothing mask containing `bits` contains every sub-mask of `bits`. -/
theorem hasSmoothing_mono {s bits sub : Nat} (hsub : bits &&& sub = sub)
    (h : hasSmoothing s bits = false) : hasSmoothing s sub = false := by
  unfold hasSmoothing at h ⊢
  simp only [bne_eq_false_iff_eq] at h ⊢
  have e1 : s &&& sub = s &&& (bits &&& sub) := by rw [hsub]
  rw [e1, ← Nat.and_assoc, h]
  simp

theorem unref_islands_step_id {s : Nat} (t : QT)
    (h : hasSmoothing s eliminate_unrefined_islands = false) :
    unref_islands_step s t = t := by
  apply map_active_id
  intro c hc
  obtain ⟨lv, xx, yy, mm, rf, cf⟩ := c
  simp [h]

theorem patch_step_id {s : Nat} (t : QT)
    (h : hasSmoothing s patch_level_1 = false) : patch_step s t = t := by
  apply map_active_id
  intro c hc
  obtain ⟨lv, xx, yy, mm, rf, cf⟩ := c
  simp [h]

theorem coarsest_step_id_nf {s : Nat} {t : QT}
    (hf : ∀ c ∈ acells t, c.info.coarsenFlag = false) : coarsest_step s t = t := by
  apply map_active_id
  intro c hc
  have h := hf c hc
  obtain ⟨lv, xx, yy, mm, rf, cf⟩ := c
  simp only at h
  subst h
  simp

theorem dnpui_step_id_nf {s : Nat} {t : QT}
    (hf : ∀ c ∈ acells t, c.info.coarsenFlag = false) : dnpui_step s t = t := by
  apply map_active_id
  intro c hc
  have h := hf c hc
  obtain ⟨lv, xx, yy, mm, rf, cf⟩ := c
  simp only at h
  subst h
  simp

/-- C6 (amended): `execute_coarsening_and_refinement` on a triangulation with
no refine and no coarsen flags is a no-op — the whole mesh, including its
face data (boundary ids) and hence all counts, ids and vertex positions, is
returned unchanged — provided the smoothing includes none of the
flag-inventing algorithms (the refined-island eliminations, which place
coarsen flags on flag-free meshes by the counterexample, and
`eliminate_unrefined_islands` / `patch_level_1`, which place refine flags on
their own), and the mesh satisfies the one-irregularity invariant
corresponding to the selected smoothing. -/
theorem ecr_noop_when_unflagged (s : Nat) (m : Mesh)
    (hs : flag_inventing_smoothing_off s) (hf : no_flags m.tree)
    (hb : lvl_balanced (relA s) (acells m.tree)) :
    ecr_mesh s m = m := by
  have hs2 : hasSmoothing s eliminate_unrefined_islands = false :=
    hasSmoothing_mono (by decide) hs
  have hs4 : hasSmoothing s patch_level_1 = false :=
    hasSmoothing_mono (by decide) hs
  have hsCI : coarsening_islands_off s := hasSmoothing_mono (by decide) hs
  have hfr : ∀ c ∈ acells m.tree, c.info.refineFlag = false := fun c hc => (hf c hc).1
  have hfc : ∀ c ∈ acells m.tree, c.info.coarsenFlag = false := fun c hc => (hf c hc).2
  have hisl : eliminate_refined_islands s m.tree = m.tree :=
    island_go_id _ _ hsCI 0 0 0
  have hpass : smoothing_pass s m.tree = m.tree := by
    unfold smoothing_pass
    rw [regularize_id hfr hb, unref_islands_step_id _ hs2, patch_step_id _ hs4,
      coarsest_step_id_nf hfc, dnpui_step_id_nf hfc, fix_coarsen_flags_id hfc]
  have hprep : prepare_coarsening_and_refinement s m.tree = m.tree := by
    show (smoothing_pass s)^[n_flag_changes m.tree]
      (eliminate_refined_islands s m.tree) = m.tree
    rw [hisl]
    exact Function.iterate_fixed hpass _
  have hcoar : execute_coarsening m.tree = m.tree :=
    execute_coarsening_go_id _ _ 0 0 0 hfc
  have href : execute_refinement m.tree = m.tree :=
    execute_refinement_id _ 0 0 0 hfr
  have hflag : flagged_cells m.tree = [] := by
    unfold flagged_cells
    rw [List.filter_eq_nil_iff]
    intro c hc
    simp [hfr c hc]
  show Mesh.mk _ _ = m
  rw [hprep, hcoar, hflag, href, clear_all_flags_id hf]
  simp only [List.foldl_nil]

/-- C4 (amended): `prepare_coarsening_and_refinement` may add refine flags and
may remove coarsen flags, but it never places a coarsen flag on a cell that
was not already flagged for coarsening — provided the smoothing does not
include the `eliminate_refined_inner_islands` /
`eliminate_refined_boundary_islands` bits (which, by the counterexample, are
exactly the smoothing algorithms that do invent coarsen flags). -/
theorem prepare_never_invents_coarsen_flags (s : Nat) (t : QT)
    (hs : coarsening_islands_off s) :
    ∀ c ∈ acells (prepare_coarsening_and_refinement s t),
      c.info.coarsenFlag = true →
        ∃ c₀ ∈ acells t, c₀.sq = c.sq ∧ c₀.info.coarsenFlag = true := by
  suffices h : ∀ k, ∀ c ∈ acells ((smoothing_pass s)^[k] t),
      c.info.coarsenFlag = true →
        ∃ c₀ ∈ acells t, c₀.sq = c.sq ∧ c₀.info.coarsenFlag = true by
    intro c hc hcf
    have hrw : prepare_coarsening_and_refinement s t =
        (smoothing_pass s)^[n_flag_changes t] t := by
      show (smoothing_pass s)^[n_flag_changes t] (eliminate_refined_islands s t) = _
      rw [show eliminate_refined_islands s t = t from island_go_id _ _ hs 0 0 0]
    rw [hrw] at hc
    exact h _ c hc hcf
  intro k
  induction k with
  | zero => intro c hc hcf; exact ⟨c, hc, rfl, hcf⟩
  | succ k ih =>
      intro c hc hcf
      rw [Function.iterate_succ_apply'] at hc
      have hc1 : c ∈ acells (fix_coarsen_flags (dnpui_step s (coarsest_step s
          (patch_step s (unref_islands_step s
            (regularize s ((smoothing_pass s)^[k] t))))))) := hc
      rw [acells_fix_coarsen_flags] at hc1
      rcases List.mem_map.1 hc1 with ⟨c1, hc1m, rfl⟩
      simp only at hcf
      rw [Bool.and_eq_true] at hcf
      have hcf1 : c1.info.coarsenFlag = true := hcf.1
      rw [acells_dnpui] at hc1m
      rcases List.mem_map.1 hc1m with ⟨c2, hc2m, rfl⟩
      simp only at hcf1
      rw [Bool.and_eq_true] at hcf1
      have hcf2 : c2.info.coarsenFlag = true := hcf1.1
      rw [acells_coarsest] at hc2m
      rcases List.mem_map.1 hc2m with ⟨c3, hc3m, rfl⟩
      simp only at hcf2
      rw [Bool.and_eq_true] at hcf2
      have hcf3 : c3.info.coarsenFlag = true := hcf2.1
      rw [acells_patch] at hc3m
      rcases List.mem_map.1 hc3m with ⟨c4, hc4m, rfl⟩
      have hcf4 : c4.info.coarsenFlag = true := hcf3
      rw [acells_unref_islands] at hc4m
      rcases List.mem_map.1 hc4m with ⟨c5, hc5m, rfl⟩
      have hcf5 : c5.info.coarsenFlag = true := hcf4
      rw [acells_regularize] at hc5m
      rcases List.mem_map.1 hc5m with ⟨c6, hc6m, rfl⟩
      have hcf6 : c6.info.coarsenFlag = true := hcf5
      rcases ih c6 hc6m hcf6 with ⟨c₀, h₀, hsq, hcf₀⟩
      exact ⟨c₀, h₀, hsq, hcf₀⟩

theorem lookupE_insertE_ne {st : List (EKey × Nat)} {k q : EKey} {v : Nat}
    (h : q ≠ k) : lookupE (insertE k v st) q = lookupE st q := by
  unfold insertE
  split
  · rfl
  · unfold lookupE
    rw [List.find?_cons_of_neg]
    simp only [decide_eq_true_eq]
    exact fun hh => h hh.symm

theorem lookupE_insertE_self {st : List (EKey × Nat)} {k : EKey} {v : Nat}
    (h : lookupE st k = none) : lookupE (insertE k v st) k = some v := by
  unfold insertE
  rw [h]
  simp only [Option.isSome_none, Bool.false_eq_true, if_false]
  unfold lookupE
  rw [List.find?_cons_of_pos]
  · rfl
  · simp

theorem foldl_insertE_ne (keys : List EKey) (v : Nat) (st : List (EKey × Nat))
    (q : EKey) (h : ∀ k ∈ keys, q ≠ k) :
    lookupE (keys.foldl (fun st' k => insertE k v st') st) q = lookupE st q := by
  induction keys generalizing st with
  | nil => rfl
  | cons k ks ih =>
      simp only [List.foldl_cons]
      rw [ih _ fun k' hk' => h k' (List.mem_cons_of_mem _ hk'),
        lookupE_insertE_ne (h k (List.mem_cons_self _ _))]

theorem split_edge_lookup_ne (e : EKey) (st : List (EKey × Nat)) (q : EKey)
    (h : ∀ ce ∈ edge_children e, q ≠ ce) :
    lookupE (split_edge e st) q = lookupE st q := by
  unfold split_edge
  rcases he : e.horiz with _ | _ <;>
    simp only [edge_children, he, Bool.false_eq_true, if_false, if_true,
      List.foldl_cons, List.foldl_nil] <;>
  · rw [lookupE_insertE_ne, lookupE_insertE_ne]
    · exact h _ (by simp [edge_children, he])
    · exact h _ (by simp [edge_children, he])

theorem split_edge_spec (e : EKey) (st : List (EKey × Nat)) :
    ∀ ce ∈ edge_children e, lookupE st ce = none →
      lookupE (split_edge e st) ce =
        some ((lookupE st e).getD internal_face_boundary_id) := by
  intro ce hce habs
  unfold split_edge
  rcases he : e.horiz with _ | _ <;>
    simp only [edge_children, he, Bool.false_eq_true, if_false, if_true,
      List.mem_cons, List.mem_singleton, List.foldl_cons, List.foldl_nil] at hce ⊢ <;>
      rcases hce with rfl | rfl | h0
  · -- vertical edge, first child
    rw [lookupE_insertE_ne, lookupE_insertE_self habs]
    intro hh
    have := congrArg EKey.ey hh
    simp at this
  · -- vertical edge, second child
    rw [lookupE_insertE_self]
    rw [lookupE_insertE_ne, habs]
    intro hh
    have := congrArg EKey.ey hh
    simp at this
  · cases h0
  · -- horizontal edge, first child
    rw [lookupE_insertE_ne, lookupE_insertE_self habs]
    intro hh
    have := congrArg EKey.ex hh
    simp at this
  · -- horizontal edge, second child
    rw [lookupE_insertE_self]
    rw [lookupE_insertE_ne, habs]
    intro hh
    have := congrArg EKey.ex hh
    simp at this
  · cases h0

theorem foldl_split_ne (es : List EKey) (st : List (EKey × Nat)) (q : EKey)
    (h : ∀ e ∈ es, ∀ ce ∈ edge_children e, q ≠ ce) :
    lookupE (es.foldl (fun st' e => split_edge e st') st) q = lookupE st q := by
  induction es generalizing st with
  | nil => rfl
  | cons e es ih =>
      simp only [List.foldl_cons]
      rw [ih _ fun e' he' => h e' (List.mem_cons_of_mem _ he'),
        split_edge_lookup_ne _ _ _ (h e (List.mem_cons_self _ _))]

theorem interior_ne_children (p : Sq) :
    ∀ ie ∈ interior_edges p, ∀ e ∈ cell_edges p, ∀ ce ∈ edge_children e, ie ≠ ce := by
  intro ie hie e he ce hce
  simp only [interior_edges, cell_edges, List.mem_cons, List.not_mem_nil,
    or_false] at hie he
  rcases he with rfl | rfl | rfl | rfl <;>
    simp only [edge_children, if_pos, Bool.false_eq_true, if_false,
      List.mem_cons, List.not_mem_nil, or_false] at hce <;>
    rcases hce with rfl | rfl <;>
    rcases hie with rfl | rfl | rfl | rfl <;>
    first
      | (simp only [ne_eq, EKey.mk.injEq, eq_self_iff_true, true_and]; omega)
      | simp [EKey.mk.injEq]

theorem edge_children_lvl (e : EKey) : ∀ ce ∈ edge_children e, ce.lvl = e.lvl + 1 := by
  intro ce hce
  rcases he : e.horiz with _ | _ <;>
    simp only [edge_children, he, Bool.false_eq_true, if_false, if_true,
      List.mem_cons, List.not_mem_nil, or_false] at hce <;>
    rcases hce with rfl | rfl <;> rfl

theorem cell_edges_lvl (p : Sq) : ∀ e ∈ cell_edges p, e.lvl = p.lvl := by
  intro e he
  simp only [cell_edges, List.mem_cons, List.not_mem_nil, or_false] at he
  rcases he with rfl | rfl | rfl | rfl <;> rfl

theorem parent_ne_child (p : Sq) :
    ∀ e ∈ cell_edges p, ∀ e' ∈ cell_edges p, ∀ ce ∈ edge_children e', e ≠ ce := by
  intro e he e' he' ce hce h
  have h1 := cell_edges_lvl p e he
  have h2 := cell_edges_lvl p e' he'
  have h3 := edge_children_lvl e' ce hce
  have := congrArg EKey.lvl h
  omega

theorem children_cross_ne (p : Sq) :
    ∀ e ∈ cell_edges p, ∀ e' ∈ cell_edges p, e ≠ e' →
      ∀ ce ∈ edge_children e, ∀ ce' ∈ edge_children e', ce ≠ ce' := by
  intro e he e' he' hne ce hce ce' hce'
  simp only [cell_edges, List.mem_cons, List.not_mem_nil, or_false] at he he'
  rcases he with rfl | rfl | rfl | rfl <;> rcases he' with rfl | rfl | rfl | rfl <;>
    (try (exact absurd rfl hne)) <;>
    simp only [edge_children, if_pos, Bool.false_eq_true, if_false, List.mem_cons,
      List.not_mem_nil, or_false] at hce hce' <;>
    rcases hce with rfl | rfl <;> rcases hce' with rfl | rfl <;>
    first
      | (simp only [ne_eq, EKey.mk.injEq, eq_self_iff_true, true_and]; omega)
      | simp [EKey.mk.injEq]

theorem refine_cell_edges_interior (p : Sq) (st : List (EKey × Nat)) :
    ∀ ie ∈ interior_edges p, lookupE st ie = none →
      lookupE (refine_cell_edges p st) ie = some internal_face_boundary_id := by
  intro ie hie habs
  unfold refine_cell_edges
  have habs4 : lookupE ((cell_edges p).foldl (fun st' e => split_edge e st') st) ie
      = none := by
    rw [foldl_split_ne _ _ _ fun e he ce hce => interior_ne_children p ie hie e he ce hce]
    exact habs
  generalize hst4 : (cell_edges p).foldl (fun st' e => split_edge e st') st = st4 at habs4 ⊢
  simp only [interior_edges, List.mem_cons, List.not_mem_nil, or_false] at hie
  simp only [interior_edges, List.foldl_cons, List.foldl_nil]
  rcases hie with rfl | rfl | rfl | rfl
  · rw [lookupE_insertE_ne (by first
        | (simp only [ne_eq, EKey.mk.injEq, eq_self_iff_true, true_and]; omega)
        | simp [EKey.mk.injEq]),
      lookupE_insertE_ne (by first
        | (simp only [ne_eq, EKey.mk.injEq, eq_self_iff_true, true_and]; omega)
        | simp [EKey.mk.injEq]),
      lookupE_insertE_ne (by first
        | (simp only [ne_eq, EKey.mk.injEq, eq_self_iff_true, true_and]; omega)
        | simp [EKey.mk.injEq]),
      lookupE_insertE_self habs4]
  · rw [lookupE_insertE_ne (by first
        | (simp only [ne_eq, EKey.mk.injEq, eq_self_iff_true, true_and]; omega)
        | simp [EKey.mk.injEq]),
      lookupE_insertE_ne (by first
        | (simp only [ne_eq, EKey.mk.injEq, eq_self_iff_true, true_and]; omega)
        | simp [EKey.mk.injEq]),
      lookupE_insertE_self (by
        rw [lookupE_insertE_ne (by first
        | (simp only [ne_eq, EKey.mk.injEq, eq_self_iff_true, true_and]; omega)
        | simp [EKey.mk.injEq])]
        exact habs4)]
  · rw [lookupE_insertE_ne (by first
        | (simp only [ne_eq, EKey.mk.injEq, eq_self_iff_true, true_and]; omega)
        | simp [EKey.mk.injEq]),
      lookupE_insertE_self (by
        rw [lookupE_insertE_ne (by first
        | (simp only [ne_eq, EKey.mk.injEq, eq_self_iff_true, true_and]; omega)
        | simp [EKey.mk.injEq]),
          lookupE_insertE_ne (by first
        | (simp only [ne_eq, EKey.mk.injEq, eq_self_iff_true, true_and]; omega)
        | simp [EKey.mk.injEq])]
        exact habs4)]
  · rw [lookupE_insertE_self (by
      rw [lookupE_insertE_ne (by first
        | (simp only [ne_eq, EKey.mk.injEq, eq_self_iff_true, true_and]; omega)
        | simp [EKey.mk.injEq]),
        lookupE_insertE_ne (by first
        | (simp only [ne_eq, EKey.mk.injEq, eq_self_iff_true, true_and]; omega)
        | simp [EKey.mk.injEq]),
        lookupE_insertE_ne (by first
        | (simp only [ne_eq, EKey.mk.injEq, eq_self_iff_true, true_and]; omega)
        | simp [EKey.mk.injEq])]
      exact habs4)]


theorem refine_cell_edges_inherit (p : Sq) (st : List (EKey × Nat)) :
    ∀ e ∈ cell_edges p, ∀ ce ∈ edge_children e, lookupE st ce = none →
      lookupE (refine_cell_edges p st) ce =
        some ((lookupE st e).getD internal_face_boundary_id) := by
  intro e he ce hce habs
  unfold refine_cell_edges
  rw [foldl_insertE_ne _ _ _ ce
    (fun k hk => Ne.symm (interior_ne_children p k hk e he ce hce))]
  have he' := he
  simp only [cell_edges, List.mem_cons, List.not_mem_nil, or_false] at he'
  simp only [cell_edges, List.foldl_cons, List.foldl_nil]
  rcases he' with rfl | rfl | rfl | rfl
  · rw [split_edge_lookup_ne _ _ _ (fun ce' hce' => children_cross_ne p ⟨true, p.lvl, p.x, p.y⟩ (show (⟨true, p.lvl, p.x, p.y⟩ : EKey) ∈ cell_edges p by simp [cell_edges]) ⟨false, p.lvl, p.x + 1, p.y⟩ (show (⟨false, p.lvl, p.x + 1, p.y⟩ : EKey) ∈ cell_edges p by simp [cell_edges])
          (by first
            | (simp only [ne_eq, EKey.mk.injEq, eq_self_iff_true, true_and]; omega)
            | simp [EKey.mk.injEq]) ce hce ce' hce'),
      split_edge_lookup_ne _ _ _ (fun ce' hce' => children_cross_ne p ⟨true, p.lvl, p.x, p.y⟩ (show (⟨true, p.lvl, p.x, p.y⟩ : EKey) ∈ cell_edges p by simp [cell_edges]) ⟨false, p.lvl, p.x, p.y⟩ (show (⟨false, p.lvl, p.x, p.y⟩ : EKey) ∈ cell_edges p by simp [cell_edges])
          (by first
            | (simp only [ne_eq, EKey.mk.injEq, eq_self_iff_true, true_and]; omega)
            | simp [EKey.mk.injEq]) ce hce ce' hce'),
      split_edge_lookup_ne _ _ _ (fun ce' hce' => children_cross_ne p ⟨true, p.lvl, p.x, p.y⟩ (show (⟨true, p.lvl, p.x, p.y⟩ : EKey) ∈ cell_edges p by simp [cell_edges]) ⟨true, p.lvl, p.x, p.y + 1⟩ (show (⟨true, p.lvl, p.x, p.y + 1⟩ : EKey) ∈ cell_edges p by simp [cell_edges])
          (by first
            | (simp only [ne_eq, EKey.mk.injEq, eq_self_iff_true, true_and]; omega)
            | simp [EKey.mk.injEq]) ce hce ce' hce'),
      split_edge_spec _ _ ce hce
      (by exact habs)]
  · rw [split_edge_lookup_ne _ _ _ (fun ce' hce' => children_cross_ne p ⟨true, p.lvl, p.x, p.y + 1⟩ (show (⟨true, p.lvl, p.x, p.y + 1⟩ : EKey) ∈ cell_edges p by simp [cell_edges]) ⟨false, p.lvl, p.x + 1, p.y⟩ (show (⟨false, p.lvl, p.x + 1, p.y⟩ : EKey) ∈ cell_edges p by simp [cell_edges])
          (by first
            | (simp only [ne_eq, EKey.mk.injEq, eq_self_iff_true, true_and]; omega)
            | simp [EKey.mk.injEq]) ce hce ce' hce'),
      split_edge_lookup_ne _ _ _ (fun ce' hce' => children_cross_ne p ⟨true, p.lvl, p.x, p.y + 1⟩ (show (⟨true, p.lvl, p.x, p.y + 1⟩ : EKey) ∈ cell_edges p by simp [cell_edges]) ⟨false, p.lvl, p.x, p.y⟩ (show (⟨false, p.lvl, p.x, p.y⟩ : EKey) ∈ cell_edges p by simp [cell_edges])
          (by first
            | (simp only [ne_eq, EKey.mk.injEq, eq_self_iff_true, true_and]; omega)
            | simp [EKey.mk.injEq]) ce hce ce' hce'),
      split_edge_spec _ _ ce hce
      (by
        rw [split_edge_lookup_ne _ _ _ (fun ce' hce' => children_cross_ne p ⟨true, p.lvl, p.x, p.y + 1⟩ (show (⟨true, p.lvl, p.x, p.y + 1⟩ : EKey) ∈ cell_edges p by simp [cell_edges]) ⟨true, p.lvl, p.x, p.y⟩ (show (⟨true, p.lvl, p.x, p.y⟩ : EKey) ∈ cell_edges p by simp [cell_edges])
          (by first
            | (simp only [ne_eq, EKey.mk.injEq, eq_self_iff_true, true_and]; omega)
            | simp [EKey.mk.injEq]) ce hce ce' hce')]
        exact habs),
      split_edge_lookup_ne _ _ _ (fun ce' hce' => parent_ne_child p ⟨true, p.lvl, p.x, p.y + 1⟩ (show (⟨true, p.lvl, p.x, p.y + 1⟩ : EKey) ∈ cell_edges p by simp [cell_edges]) ⟨true, p.lvl, p.x, p.y⟩ (show (⟨true, p.lvl, p.x, p.y⟩ : EKey) ∈ cell_edges p by simp [cell_edges]) ce' hce')]
  · rw [split_edge_lookup_ne _ _ _ (fun ce' hce' => children_cross_ne p ⟨false, p.lvl, p.x, p.y⟩ (show (⟨false, p.lvl, p.x, p.y⟩ : EKey) ∈ cell_edges p by simp [cell_edges]) ⟨false, p.lvl, p.x + 1, p.y⟩ (show (⟨false, p.lvl, p.x + 1, p.y⟩ : EKey) ∈ cell_edges p by simp [cell_edges])
          (by first
            | (simp only [ne_eq, EKey.mk.injEq, eq_self_iff_true, true_and]; omega)
            | simp [EKey.mk.injEq]) ce hce ce' hce'),
      split_edge_spec _ _ ce hce
      (by
        rw [split_edge_lookup_ne _ _ _ (fun ce' hce' => children_cross_ne p ⟨false, p.lvl, p.x, p.y⟩ (show (⟨false, p.lvl, p.x, p.y⟩ : EKey) ∈ cell_edges p by simp [cell_edges]) ⟨true, p.lvl, p.x, p.y + 1⟩ (show (⟨true, p.lvl, p.x, p.y + 1⟩ : EKey) ∈ cell_edges p by simp [cell_edges])
          (by first
            | (simp only [ne_eq, EKey.mk.injEq, eq_self_iff_true, true_and]; omega)
            | simp [EKey.mk.injEq]) ce hce ce' hce'),
          split_edge_lookup_ne _ _ _ (fun ce' hce' => children_cross_ne p ⟨false, p.lvl, p.x, p.y⟩ (show (⟨false, p.lvl, p.x, p.y⟩ : EKey) ∈ cell_edges p by simp [cell_edges]) ⟨true, p.lvl, p.x, p.y⟩ (show (⟨true, p.lvl, p.x, p.y⟩ : EKey) ∈ cell_edges p by simp [cell_edges])
          (by first
            | (simp only [ne_eq, EKey.mk.injEq, eq_self_iff_true, true_and]; omega)
            | simp [EKey.mk.injEq]) ce hce ce' hce')]
        exact habs),
      split_edge_lookup_ne _ _ _ (fun ce' hce' => parent_ne_child p ⟨false, p.lvl, p.x, p.y⟩ (show (⟨false, p.lvl, p.x, p.y⟩ : EKey) ∈ cell_edges p by simp [cell_edges]) ⟨true, p.lvl, p.x, p.y + 1⟩ (show (⟨true, p.lvl, p.x, p.y + 1⟩ : EKey) ∈ cell_edges p by simp [cell_edges]) ce' hce'),
      split_edge_lookup_ne _ _ _ (fun ce' hce' => parent_ne_child p ⟨false, p.lvl, p.x, p.y⟩ (show (⟨false, p.lvl, p.x, p.y⟩ : EKey) ∈ cell_edges p by simp [cell_edges]) ⟨true, p.lvl, p.x, p.y⟩ (show (⟨true, p.lvl, p.x, p.y⟩ : EKey) ∈ cell_edges p by simp [cell_edges]) ce' hce')]
  · rw [split_edge_spec _ _ ce hce
      (by
        rw [split_edge_lookup_ne _ _ _ (fun ce' hce' => children_cross_ne p ⟨false, p.lvl, p.x + 1, p.y⟩ (show (⟨false, p.lvl, p.x + 1, p.y⟩ : EKey) ∈ cell_edges p by simp [cell_edges]) ⟨false, p.lvl, p.x, p.y⟩ (show (⟨false, p.lvl, p.x, p.y⟩ : EKey) ∈ cell_edges p by simp [cell_edges])
          (by first
            | (simp only [ne_eq, EKey.mk.injEq, eq_self_iff_true, true_and]; omega)
            | simp [EKey.mk.injEq]) ce hce ce' hce'),
          split_edge_lookup_ne _ _ _ (fun ce' hce' => children_cross_ne p ⟨false, p.lvl, p.x + 1, p.y⟩ (show (⟨false, p.lvl, p.x + 1, p.y⟩ : EKey) ∈ cell_edges p by simp [cell_edges]) ⟨true, p.lvl, p.x, p.y + 1⟩ (show (⟨true, p.lvl, p.x, p.y + 1⟩ : EKey) ∈ cell_edges p by simp [cell_edges])
          (by first
            | (simp only [ne_eq, EKey.mk.injEq, eq_self_iff_true, true_and]; omega)
            | simp [EKey.mk.injEq]) ce hce ce' hce'),
          split_edge_lookup_ne _ _ _ (fun ce' hce' => children_cross_ne p ⟨false, p.lvl, p.x + 1, p.y⟩ (show (⟨false, p.lvl, p.x + 1, p.y⟩ : EKey) ∈ cell_edges p by simp [cell_edges]) ⟨true, p.lvl, p.x, p.y⟩ (show (⟨true, p.lvl, p.x, p.y⟩ : EKey) ∈ cell_edges p by simp [cell_edges])
          (by first
            | (simp only [ne_eq, EKey.mk.injEq, eq_self_iff_true, true_and]; omega)
            | simp [EKey.mk.injEq]) ce hce ce' hce')]
        exact habs),
      split_edge_lookup_ne _ _ _ (fun ce' hce' => parent_ne_child p ⟨false, p.lvl, p.x + 1, p.y⟩ (show (⟨false, p.lvl, p.x + 1, p.y⟩ : EKey) ∈ cell_edges p by simp [cell_edges]) ⟨false, p.lvl, p.x, p.y⟩ (show (⟨false, p.lvl, p.x, p.y⟩ : EKey) ∈ cell_edges p by simp [cell_edges]) ce' hce'),
      split_edge_lookup_ne _ _ _ (fun ce' hce' => parent_ne_child p ⟨false, p.lvl, p.x + 1, p.y⟩ (show (⟨false, p.lvl, p.x + 1, p.y⟩ : EKey) ∈ cell_edges p by simp [cell_edges]) ⟨true, p.lvl, p.x, p.y + 1⟩ (show (⟨true, p.lvl, p.x, p.y + 1⟩ : EKey) ∈ cell_edges p by simp [cell_edges]) ce' hce'),
      split_edge_lookup_ne _ _ _ (fun ce' hce' => parent_ne_child p ⟨false, p.lvl, p.x + 1, p.y⟩ (show (⟨false, p.lvl, p.x + 1, p.y⟩ : EKey) ∈ cell_edges p by simp [cell_edges]) ⟨true, p.lvl, p.x, p.y⟩ (show (⟨true, p.lvl, p.x, p.y⟩ : EKey) ∈ cell_edges p by simp [cell_edges]) ce' hce')]


theorem lookupE_insertE_mono (k : EKey) (v : Nat) {st : List (EKey × Nat)}
    {q : EKey} {b : Nat} (h : lookupE st q = some b) :
    lookupE (insertE k v st) q = some b := by
  by_cases hqk : q = k
  · subst hqk
    unfold insertE
    rw [h]
    exact h
  · rw [lookupE_insertE_ne hqk]
    exact h

theorem foldl_insertE_mono (ks : List EKey) (v : Nat) :
    ∀ (st : List (EKey × Nat)) {q : EKey} {b : Nat}, lookupE st q = some b →
      lookupE (ks.foldl (fun st2 k => insertE k v st2) st) q = some b := by
  induction ks with
  | nil => intro st q b h; exact h
  | cons k ks ih =>
      intro st q b h
      simp only [List.foldl_cons]
      exact ih _ (lookupE_insertE_mono k v h)

theorem split_edge_mono (e : EKey) (st : List (EKey × Nat)) {q : EKey} {b : Nat}
    (h : lookupE st q = some b) : lookupE (split_edge e st) q = some b := by
  unfold split_edge
  exact foldl_insertE_mono _ _ _ h

theorem foldl_split_mono (es : List EKey) :
    ∀ (st : List (EKey × Nat)) {q : EKey} {b : Nat}, lookupE st q = some b →
      lookupE (es.foldl (fun st2 e => split_edge e st2) st) q = some b := by
  induction es with
  | nil => intro st q b h; exact h
  | cons e es ih =>
      intro st q b h
      simp only [List.foldl_cons]
      exact ih _ (split_edge_mono e st h)

/-- Once an edge carries a boundary indicator, no amount of further
refinement bookkeeping changes it (edges are created once, `insertE` never
overwrites). -/
theorem refine_cell_edges_mono (p : Sq) (st : List (EKey × Nat)) {q : EKey}
    {b : Nat} (h : lookupE st q = some b) :
    lookupE (refine_cell_edges p st) q = some b := by
  unfold refine_cell_edges
  exact foldl_insertE_mono _ _ _ (foldl_split_mono _ _ h)

theorem fold_refine_mono (cs : List ACell) :
    ∀ (st : List (EKey × Nat)) {q : EKey} {b : Nat}, lookupE st q = some b →
      lookupE (cs.foldl (fun st2 d => refine_cell_edges d.sq st2) st) q = some b := by
  induction cs with
  | nil => intro st q b h; exact h
  | cons d cs ih =>
      intro st q b h
      simp only [List.foldl_cons]
      exact ih _ (refine_cell_edges_mono _ _ h)

/-- A sub-edge determines the edge it was split from. -/
theorem edge_children_parent_eq {e f ce : EKey} (h : ce ∈ edge_children e)
    (h2 : ce ∈ edge_children f) : e = f := by
  rcases e with ⟨eh, el, ex, ey⟩
  rcases f with ⟨fh, fl, fx, fy⟩
  rcases ce with ⟨ch, cl, cx, cy⟩
  cases eh <;> cases fh <;>
    simp only [edge_children, if_true, if_false, Bool.false_eq_true, List.mem_cons,
      List.not_mem_nil, or_false, EKey.mk.injEq] at h h2 <;>
    rcases h with ⟨h1, h3, h4, h5⟩ | ⟨h1, h3, h4, h5⟩ <;>
    rcases h2 with ⟨g1, g3, g4, g5⟩ | ⟨g1, g3, g4, g5⟩ <;>
    simp_all <;> omega

/-- A sub-edge of an existing edge is never one of the interior edges newly
created inside a refined cell (their distinguishing coordinate is odd, a
sub-edge's is even). -/
theorem edge_children_not_interior {e ce : EKey} (h : ce ∈ edge_children e) :
    ∀ q : Sq, ce ∉ interior_edges q := by
  intro q hin
  rcases e with ⟨eh, el, ex, ey⟩
  rcases ce with ⟨ch, cl, cx, cy⟩
  cases eh <;>
    simp only [edge_children, interior_edges, if_true, if_false,
      Bool.false_eq_true, List.mem_cons, List.not_mem_nil, or_false,
      EKey.mk.injEq] at h hin <;>
    rcases h with ⟨h1, h3, h4, h5⟩ | ⟨h1, h3, h4, h5⟩ <;>
    rcases hin with ⟨g1, g3, g4, g5⟩ | ⟨g1, g3, g4, g5⟩ | ⟨g1, g3, g4, g5⟩ |
      ⟨g1, g3, g4, g5⟩ <;>
    simp_all <;> omega

/-- Refining one cell leaves every edge alone that is neither a sub-edge of
one of its edges nor one of its interior edges. -/
theorem refine_cell_edges_preserve (p : Sq) (st : List (EKey × Nat)) (q : EKey)
    (hch : ∀ e ∈ cell_edges p, q ∉ edge_children e) (hint : q ∉ interior_edges p) :
    lookupE (refine_cell_edges p st) q = lookupE st q := by
  unfold refine_cell_edges
  rw [foldl_insertE_ne _ _ _ q (fun k hk hqk => hint (hqk ▸ hk))]
  exact foldl_split_ne _ _ _ (fun e he ce hce hqce => hch e he (hqce ▸ hce))

/-- Refining any set of cells that includes a cell with edge `e` gives the
previously absent sub-edge `ce` of `e` the boundary indicator of `e`
(inheritance through an arbitrary refinement sweep). -/
theorem fold_refine_inherit (cs : List ACell) :
    ∀ (st : List (EKey × Nat)) (e : EKey) (b : Nat) (ce : EKey),
      lookupE st e = some b → ce ∈ edge_children e → lookupE st ce = none →
      (∃ d ∈ cs, e ∈ cell_edges d.sq) →
      lookupE (cs.foldl (fun st2 d => refine_cell_edges d.sq st2) st) ce = some b := by
  induction cs with
  | nil =>
      rintro st e b ce _ _ _ ⟨d, hd, _⟩
      cases hd
  | cons d0 cs ih =>
      rintro st e b ce hb hce habs ⟨d, hd, he⟩
      simp only [List.foldl_cons]
      by_cases hed0 : e ∈ cell_edges d0.sq
      · have h1 : lookupE (refine_cell_edges d0.sq st) ce =
            some ((lookupE st e).getD internal_face_boundary_id) :=
          refine_cell_edges_inherit d0.sq st e hed0 ce hce habs
        rw [hb, Option.getD_some] at h1
        exact fold_refine_mono cs _ h1
      · have hd2 : d ∈ cs := by
          rcases List.mem_cons.1 hd with rfl | h
          · exact absurd he hed0
          · exact h
        have hb2 : lookupE (refine_cell_edges d0.sq st) e = some b :=
          refine_cell_edges_mono _ _ hb
        have habs2 : lookupE (refine_cell_edges d0.sq st) ce = none := by
          have hpres := refine_cell_edges_preserve d0.sq st ce
            (fun e2 he2 hmem => hed0 (edge_children_parent_eq hmem hce ▸ he2))
            (edge_children_not_interior hce d0.sq)
          rw [hpres]
          exact habs
        exact ih _ e b ce hb2 hce habs2 ⟨d, hd2, he⟩

/-- Refining any set of cells that includes the cell at `p` gives the
previously absent interior edges of `p` the interior sentinel. -/
theorem fold_refine_interior (cs : List ACell) :
    ∀ (st : List (EKey × Nat)) (ie : EKey),
      lookupE st ie = none → (∃ d ∈ cs, ie ∈ interior_edges d.sq) →
      lookupE (cs.foldl (fun st2 d => refine_cell_edges d.sq st2) st) ie =
        some internal_face_boundary_id := by
  induction cs with
  | nil =>
      rintro st ie _ ⟨d, hd, _⟩
      cases hd
  | cons d0 cs ih =>
      rintro st ie habs ⟨d, hd, hin⟩
      simp only [List.foldl_cons]
      by_cases h0 : ie ∈ interior_edges d0.sq
      · have h1 := refine_cell_edges_interior d0.sq st ie h0 habs
        exact fold_refine_mono cs _ h1
      · have hd2 : d ∈ cs := by
          rcases List.mem_cons.1 hd with rfl | h
          · exact absurd hin h0
          · exact h
        have habs2 : lookupE (refine_cell_edges d0.sq st) ie = none := by
          have hpres := refine_cell_edges_preserve d0.sq st ie
            (fun e2 he2 hmem => absurd hin (edge_children_not_interior hmem d.sq))
            h0
          rw [hpres]
          exact habs
        exact ih _ ie habs2 ⟨d, hd2, hin⟩

/-- A pointwise sweep takes every active cell to an active cell at the same
position with the same material id, never losing a refine flag. -/
theorem map_active_tracks (f : Nat → Nat → Nat → CellInfo → CellInfo) (t : QT)
    (hmat : ∀ l x y i, (f l x y i).materialId = i.materialId)
    (hrf : ∀ l x y i, i.refineFlag = true → (f l x y i).refineFlag = true) :
    ∀ c ∈ acells t, ∃ c2 ∈ acells (map_active f t 0 0 0),
      c2.sq = c.sq ∧ c2.info.materialId = c.info.materialId ∧
        (c.info.refineFlag = true → c2.info.refineFlag = true) := by
  intro c hc
  refine ⟨⟨c.lvl, c.x, c.y, f c.lvl c.x c.y c.info⟩, ?_, rfl,
    hmat c.lvl c.x c.y c.info, fun h => hrf c.lvl c.x c.y c.info h⟩
  have hmap := active_cells_map_active f t 0 0 0
  show _ ∈ active_cells (map_active f t 0 0 0) 0 0 0
  rw [hmap]
  exact List.mem_map_of_mem _ hc

theorem smoothing_pass_tracks (s : Nat) (u : QT) :
    ∀ c ∈ acells u, ∃ c2 ∈ acells (smoothing_pass s u),
      c2.sq = c.sq ∧ c2.info.materialId = c.info.materialId ∧
        (c.info.refineFlag = true → c2.info.refineFlag = true) := by
  intro c hc
  obtain ⟨c1, h1, e1, m1, r1⟩ := map_active_tracks
    (fun l x y i => { i with refineFlag := i.refineFlag ||
      (victimB s (acells u) ⟨l, x, y, i⟩) }) u
    (fun _ _ _ _ => rfl) (fun _ _ _ _ h => by simp [h]) c hc
  have h1b : c1 ∈ acells (regularize s u) := h1
  obtain ⟨c2, h2, e2, m2, r2⟩ := map_active_tracks
    (fun l x y i => { i with refineFlag := i.refineFlag ||
      (hasSmoothing s eliminate_unrefined_islands && !hasSmoothing s patch_level_1 &&
        majorityRefinedB (acells (regularize s u)) ⟨l, x, y⟩) }) (regularize s u)
    (fun _ _ _ _ => rfl) (fun _ _ _ _ h => by simp [h]) c1 h1b
  have h2b : c2 ∈ acells (unref_islands_step s (regularize s u)) := h2
  obtain ⟨c3, h3, e3, m3, r3⟩ := map_active_tracks
    (fun l x y i => { i with refineFlag := i.refineFlag ||
      (hasSmoothing s patch_level_1 &&
        siblingRefinedB (acells (unref_islands_step s (regularize s u))) ⟨l, x, y⟩) })
    (unref_islands_step s (regularize s u))
    (fun _ _ _ _ => rfl) (fun _ _ _ _ h => by simp [h]) c2 h2b
  have h3b : c3 ∈ acells (patch_step s (unref_islands_step s (regularize s u))) := h3
  obtain ⟨c4, h4, e4, m4, r4⟩ := map_active_tracks
    (fun l _ _ i => { i with coarsenFlag := i.coarsenFlag &&
      !(hasSmoothing s coarsest_level_1 && decide (l = 1)) })
    (patch_step s (unref_islands_step s (regularize s u)))
    (fun _ _ _ _ => rfl) (fun _ _ _ _ h => h) c3 h3b
  have h4b : c4 ∈ acells (coarsest_step s
      (patch_step s (unref_islands_step s (regularize s u)))) := h4
  obtain ⟨c5, h5, e5, m5, r5⟩ := map_active_tracks
    (fun l x y i => { i with coarsenFlag := i.coarsenFlag &&
      !(hasSmoothing s do_not_produce_unrefined_islands &&
        majorityRefinedB (acells (coarsest_step s (patch_step s
          (unref_islands_step s (regularize s u))))) ⟨l, x, y⟩) })
    (coarsest_step s (patch_step s (unref_islands_step s (regularize s u))))
    (fun _ _ _ _ => rfl) (fun _ _ _ _ h => h) c4 h4b
  have h5b : c5 ∈ acells (dnpui_step s (coarsest_step s
      (patch_step s (unref_islands_step s (regularize s u))))) := h5
  obtain ⟨c6, h6, e6, m6, r6⟩ := map_active_tracks
    (fun l x y i => { i with coarsenFlag := i.coarsenFlag &&
      (keepCoarsenB (acells (dnpui_step s (coarsest_step s (patch_step s
        (unref_islands_step s (regularize s u)))))) ⟨l, x, y, i⟩) })
    (dnpui_step s (coarsest_step s (patch_step s (unref_islands_step s
      (regularize s u)))))
    (fun _ _ _ _ => rfl) (fun _ _ _ _ h => h) c5 h5b
  refine ⟨c6, h6, ?_, ?_, ?_⟩
  · rw [e6, e5, e4, e3, e2, e1]
  · rw [m6, m5, m4, m3, m2, m1]
  · intro h
    exact r6 (r5 (r4 (r3 (r2 (r1 h)))))

theorem prepare_tracks (s : Nat) (t : QT) (hs : coarsening_islands_off s) :
    ∀ c ∈ acells t, ∃ c2 ∈ acells (prepare_coarsening_and_refinement s t),
      c2.sq = c.sq ∧ c2.info.materialId = c.info.materialId ∧
        (c.info.refineFlag = true → c2.info.refineFlag = true) := by
  have hiter : ∀ k (u : QT), ∀ c ∈ acells u,
      ∃ c2 ∈ acells ((smoothing_pass s)^[k] u),
        c2.sq = c.sq ∧ c2.info.materialId = c.info.materialId ∧
          (c.info.refineFlag = true → c2.info.refineFlag = true) := by
    intro k
    induction k with
    | zero => intro u c hc; exact ⟨c, hc, rfl, rfl, fun h => h⟩
    | succ k ih =>
        intro u c hc
        obtain ⟨c1, h1, e1, m1, r1⟩ := smoothing_pass_tracks s u c hc
        obtain ⟨c2, h2, e2, m2, r2⟩ := ih (smoothing_pass s u) c1 h1
        rw [Function.iterate_succ_apply]
        exact ⟨c2, h2, by rw [e2, e1], by rw [m2, m1], fun h => r2 (r1 h)⟩
  intro c hc
  have hP : prepare_coarsening_and_refinement s t =
      (smoothing_pass s)^[n_flag_changes t] t := by
    show (smoothing_pass s)^[n_flag_changes t] (eliminate_refined_islands s t) = _
    rw [show eliminate_refined_islands s t = t from island_go_id _ _ hs 0 0 0]
  rw [hP]
  exact hiter _ t c hc

theorem map_active_no_coarsen (f : Nat → Nat → Nat → CellInfo → CellInfo) (t : QT)
    (hcf : ∀ l x y i, (f l x y i).coarsenFlag = true → i.coarsenFlag = true)
    (h : ∀ c ∈ acells t, c.info.coarsenFlag = false) :
    ∀ c ∈ acells (map_active f t 0 0 0), c.info.coarsenFlag = false := by
  intro c hc
  have hc2 : c ∈ active_cells (map_active f t 0 0 0) 0 0 0 := hc
  rw [active_cells_map_active] at hc2
  rcases List.mem_map.1 hc2 with ⟨c0, hc0, rfl⟩
  cases hcc : (f c0.lvl c0.x c0.y c0.info).coarsenFlag
  · rfl
  · have h2 := hcf _ _ _ _ hcc
    rw [h c0 hc0] at h2
    cases h2

theorem smoothing_pass_no_coarsen (s : Nat) (u : QT)
    (h : ∀ c ∈ acells u, c.info.coarsenFlag = false) :
    ∀ c ∈ acells (smoothing_pass s u), c.info.coarsenFlag = false := by
  have n1 := map_active_no_coarsen
    (fun l x y i => { i with refineFlag := i.refineFlag ||
      (victimB s (acells u) ⟨l, x, y, i⟩) }) u (fun _ _ _ _ h2 => h2) h
  have n2 := map_active_no_coarsen
    (fun l x y i => { i with refineFlag := i.refineFlag ||
      (hasSmoothing s eliminate_unrefined_islands && !hasSmoothing s patch_level_1 &&
        majorityRefinedB (acells (regularize s u)) ⟨l, x, y⟩) }) (regularize s u)
    (fun _ _ _ _ h2 => h2) n1
  have n3 := map_active_no_coarsen
    (fun l x y i => { i with refineFlag := i.refineFlag ||
      (hasSmoothing s patch_level_1 &&
        siblingRefinedB (acells (unref_islands_step s (regularize s u))) ⟨l, x, y⟩) })
    (unref_islands_step s (regularize s u)) (fun _ _ _ _ h2 => h2) n2
  have n4 := map_active_no_coarsen
    (fun l _ _ i => { i with coarsenFlag := i.coarsenFlag &&
      !(hasSmoothing s coarsest_level_1 && decide (l = 1)) })
    (patch_step s (unref_islands_step s (regularize s u)))
    (fun l x y i h2 => by
      have h3 : (i.coarsenFlag &&
          !(hasSmoothing s coarsest_level_1 && decide (l = 1))) = true := h2
      rw [Bool.and_eq_true] at h3
      exact h3.1) n3
  have n5 := map_active_no_coarsen
    (fun l x y i => { i with coarsenFlag := i.coarsenFlag &&
      !(hasSmoothing s do_not_produce_unrefined_islands &&
        majorityRefinedB (acells (coarsest_step s (patch_step s
          (unref_islands_step s (regularize s u))))) ⟨l, x, y⟩) })
    (coarsest_step s (patch_step s (unref_islands_step s (regularize s u))))
    (fun l x y i h2 => by
      have h3 : (i.coarsenFlag &&
          !(hasSmoothing s do_not_produce_unrefined_islands &&
            majorityRefinedB (acells (coarsest_step s (patch_step s
              (unref_islands_step s (regularize s u))))) ⟨l, x, y⟩)) = true := h2
      rw [Bool.and_eq_true] at h3
      exact h3.1) n4
  have n6 := map_active_no_coarsen
    (fun l x y i => { i with coarsenFlag := i.coarsenFlag &&
      (keepCoarsenB (acells (dnpui_step s (coarsest_step s (patch_step s
        (unref_islands_step s (regularize s u)))))) ⟨l, x, y, i⟩) })
    (dnpui_step s (coarsest_step s (patch_step s (unref_islands_step s
      (regularize s u)))))
    (fun l x y i h2 => by
      have h3 : (i.coarsenFlag &&
          (keepCoarsenB (acells (dnpui_step s (coarsest_step s (patch_step s
            (unref_islands_step s (regularize s u)))))) ⟨l, x, y, i⟩)) = true := h2
      rw [Bool.and_eq_true] at h3
      exact h3.1) n5
  exact n6

theorem prepare_no_coarsen (s : Nat) (t : QT) (hs : coarsening_islands_off s)
    (h : ∀ c ∈ acells t, c.info.coarsenFlag = false) :
    ∀ c ∈ acells (prepare_coarsening_and_refinement s t),
      c.info.coarsenFlag = false := by
  have hiter : ∀ k (u : QT), (∀ c ∈ acells u, c.info.coarsenFlag = false) →
      ∀ c ∈ acells ((smoothing_pass s)^[k] u), c.info.coarsenFlag = false := by
    intro k
    induction k with
    | zero => intro u hu; exact hu
    | succ k ih =>
        intro u hu
        rw [Function.iterate_succ_apply]
        exact ih (smoothing_pass s u) (smoothing_pass_no_coarsen s u hu)
  have hP : prepare_coarsening_and_refinement s t =
      (smoothing_pass s)^[n_flag_changes t] t := by
    show (smoothing_pass s)^[n_flag_changes t] (eliminate_refined_islands s t) = _
    rw [show eliminate_refined_islands s t = t from island_go_id _ _ hs 0 0 0]
  rw [hP]
  exact hiter _ t h

theorem regularize_id_of_no_victims {s : Nat} {t : QT}
    (h : ∀ c ∈ acells t, c.info.refineFlag = false → victimB s (acells t) c = false) :
    regularize s t = t := by
  apply map_active_id
  intro c hc
  cases hcf : c.info.refineFlag
  · have hv := h c hc hcf
    obtain ⟨lv, xx, yy, mm, rf, cf⟩ := c
    simp only at hcf
    subst hcf
    simp [hv]
  · obtain ⟨lv, xx, yy, mm, rf, cf⟩ := c
    simp only at hcf
    subst hcf
    rfl

/-- C3: on refinement of the (single) flagged cell `c` — in a mesh free of
coarsen flags and satisfying the one-irregularity invariant of the selected
smoothing, with no strictly coarser cell next to `c` — every child cell
created for `c` is an active cell of the result carrying the material id of
its parent unconditionally; every child of a face (edge) of `c` that did not
exist before inherits the parent edge's boundary id unconditionally; and the
newly created interior edges of `c` receive the "interior, not on the
boundary" sentinel `internal_face_boundary_id`.  The proof tracks `c`
through the preparatory smoothing (which may flag further cells but never
unflags `c`, changes material ids, or — absent the island-elimination bits —
invents coarsen flags) and through the refinement sweep over all flagged
cells. -/
theorem refinement_inheritance (s : Nat) (m : Mesh) (c : ACell)
    (hs : coarsening_islands_off s)
    (hflag : flagged_cells m.tree = [c])
    (hnc : ∀ d ∈ acells m.tree, d.info.coarsenFlag = false)
    (hb : lvl_balanced (relA s) (acells m.tree))
    (hnbr : ∀ d ∈ acells m.tree, relA s c.sq d.sq → c.lvl ≤ d.lvl) :
    (∀ ch ∈ refined_children c,
      ch ∈ acells (ecr_mesh s m).tree ∧ ch.info.materialId = c.info.materialId) ∧
    (∀ e ∈ cell_edges c.sq, ∀ b, lookupE m.edges e = some b →
      ∀ ce ∈ edge_children e, lookupE m.edges ce = none →
        lookupE (ecr_mesh s m).edges ce = some b) ∧
    (∀ ie ∈ interior_edges c.sq, lookupE m.edges ie = none →
      lookupE (ecr_mesh s m).edges ie = some internal_face_boundary_id) := by
  have hcfl : c ∈ (acells m.tree).filter (fun d => d.info.refineFlag) := by
    have h1 : c ∈ flagged_cells m.tree := by
      rw [hflag]
      exact List.mem_singleton.2 rfl
    exact h1
  have hcmem : c ∈ acells m.tree := (List.mem_filter.1 hcfl).1
  have hcrf : c.info.refineFlag = true := (List.mem_filter.1 hcfl).2
  obtain ⟨c2, hc2P, hsq2, hmat2, hrf2a⟩ := prepare_tracks s m.tree hs c hcmem
  have hcrf2 : c2.info.refineFlag = true := hrf2a hcrf
  have hncP : ∀ d ∈ acells (prepare_coarsening_and_refinement s m.tree),
      d.info.coarsenFlag = false := prepare_no_coarsen s m.tree hs hnc
  have hco : execute_coarsening (prepare_coarsening_and_refinement s m.tree) =
      prepare_coarsening_and_refinement s m.tree :=
    execute_coarsening_go_id _ _ 0 0 0 hncP
  have hc2flag : c2 ∈ flagged_cells (prepare_coarsening_and_refinement s m.tree) := by
    have h1 : c2 ∈ (acells (prepare_coarsening_and_refinement s m.tree)).filter
        (fun d => d.info.refineFlag) := List.mem_filter.2 ⟨hc2P, hcrf2⟩
    exact h1
  have hlvl2 : c2.lvl = c.lvl := congrArg Sq.lvl hsq2
  have hx2 : c2.x = c.x := congrArg Sq.x hsq2
  have hy2 : c2.y = c.y := congrArg Sq.y hsq2
  have hch_eq : refined_children c2 = refined_children c := by
    unfold refined_children childInfo
    rw [hlvl2, hx2, hy2, hmat2]
  have hcell_eq : cell_edges c2.sq = cell_edges c.sq := by rw [hsq2]
  have hint_eq : interior_edges c2.sq = interior_edges c.sq := by rw [hsq2]
  have hecr2 : ecr_mesh s m = ⟨clear_all_flags (execute_refinement
      (prepare_coarsening_and_refinement s m.tree)),
    (flagged_cells (prepare_coarsening_and_refinement s m.tree)).foldl
      (fun st d => refine_cell_edges d.sq st) m.edges⟩ := by
    show Mesh.mk _ _ = _
    rw [hco]
  have hedges : (ecr_mesh s m).edges =
      (flagged_cells (prepare_coarsening_and_refinement s m.tree)).foldl
        (fun st d => refine_cell_edges d.sq st) m.edges := by
    rw [hecr2]
  have htree : acells (ecr_mesh s m).tree = acells (clear_all_flags
      (execute_refinement (prepare_coarsening_and_refinement s m.tree))) := by
    rw [hecr2]
  refine ⟨?_, ?_, ?_⟩
  · intro ch hch
    constructor
    · rw [htree]
      rw [acells_clear_all_flags,
        show acells (execute_refinement (prepare_coarsening_and_refinement s m.tree)) =
            (acells (prepare_coarsening_and_refinement s m.tree)).flatMap
              (fun d => if d.info.refineFlag then refined_children d else [d]) from
          acells_execute_refinement _ 0 0 0]
      apply List.mem_map.2
      refine ⟨ch, List.mem_flatMap.2 ⟨c2, hc2P, ?_⟩, ?_⟩
      · rw [if_pos hcrf2, hch_eq]
        exact hch
      · simp only [refined_children, childInfo, List.mem_cons, List.not_mem_nil,
          or_false] at hch
        rcases hch with rfl | rfl | rfl | rfl <;> rfl
    · simp only [refined_children, childInfo, List.mem_cons, List.not_mem_nil,
        or_false] at hch
      rcases hch with rfl | rfl | rfl | rfl <;> rfl
  · intro e he b hbv ce hce habs
    rw [hedges]
    exact fold_refine_inherit _ _ e b ce hbv hce habs
      ⟨c2, hc2flag, by rw [hcell_eq]; exact he⟩
  · intro ie hie habs
    rw [hedges]
    exact fold_refine_interior _ _ ie habs ⟨c2, hc2flag, by rw [hint_eq]; exact hie⟩

theorem refinement_inheritance_witness :
    (∀ ch ∈ refined_children ⟨1, 0, 0, ⟨7, true, false⟩⟩,
      ch ∈ acells (ecr_mesh 0 c3mesh).tree ∧
        ch.info.materialId = (⟨1, 0, 0, ⟨7, true, false⟩⟩ : ACell).info.materialId) ∧
    (∀ e ∈ cell_edges (⟨1, 0, 0, ⟨7, true, false⟩⟩ : ACell).sq, ∀ b,
      lookupE c3mesh.edges e = some b →
      ∀ ce ∈ edge_children e, lookupE c3mesh.edges ce = none →
        lookupE (ecr_mesh 0 c3mesh).edges ce = some b) ∧
    (∀ ie ∈ interior_edges (⟨1, 0, 0, ⟨7, true, false⟩⟩ : ACell).sq,
      lookupE c3mesh.edges ie = none →
        lookupE (ecr_mesh 0 c3mesh).edges ie = some internal_face_boundary_id) :=
  refinement_inheritance 0 c3mesh ⟨1, 0, 0, ⟨7, true, false⟩⟩ (by decide) (by decide)
    (by decide) (by decide) (by decide)

theorem list_map_self {α : Type} (l : List α) (f : α → α) (h : ∀ x ∈ l, f x = x) :
    l.map f = l := by
  induction l with
  | nil => rfl
  | cons a l ih =>
      simp only [List.map_cons, h a (by simp)]
      rw [ih (fun x hx => h x (by simp [hx]))]

/-- C7: serializing with `save` and deserializing with `load` into a
triangulation constructed with the same distortion-check setting succeeds and
restores the levels (hence the active-cell count), the vertex positions and
used-flags, the face data with all boundary and manifold indicators, the
number cache and the smoothing setting; the attached manifolds and the signal
connections of the target are untouched by `load` (they are not persisted and
remain the caller's to re-attach), and `save` itself is independent of the
manifolds and signal connections of the saved triangulation. -/
theorem save_load_roundtrip (t target : TriaState)
    (hchk : target.check_for_distorted_cells = t.check_for_distorted_cells)
    (hwf : wf_indices t) :
    (∃ t', load (save t) target = some t' ∧
      t'.levels = t.levels ∧
      n_active_computed t'.levels = n_active_computed t.levels ∧
      t'.vertices = t.vertices ∧
      t'.vertices_used = t.vertices_used ∧
      t'.faces = t.faces ∧
      t'.number_cache = t.number_cache ∧
      t'.smooth_grid = t.smooth_grid ∧
      t'.manifold = target.manifold ∧
      t'.signalConnections = target.signalConnections) ∧
    (∀ ms sc, save { t with manifold := ms, signalConnections := sc } = save t) := by
  have hlev : ((t.levels.map (fun lv => lv.payload)).zip
      (reset_active_cell_indices (t.levels.map (fun lv => lv.payload)))).map
        (fun pq => (⟨pq.1, pq.2⟩ : TriaLevel)) = t.levels := by
    rw [← hwf, List.zip_map', List.map_map]
    exact list_map_self _ _ (fun x hx => rfl)
  constructor
  · simp only [load, save]
    rw [if_pos hchk.symm]
    exact ⟨_, rfl, hlev, congrArg n_active_computed hlev, rfl, rfl, rfl, rfl, rfl,
      rfl, rfl⟩
  · intro ms sc
    rfl

theorem save_load_roundtrip_witness :
    (∃ t', load (save c7state) c7target = some t' ∧
      t'.levels = c7state.levels ∧
      n_active_computed t'.levels = n_active_computed c7state.levels ∧
      t'.vertices = c7state.vertices ∧
      t'.vertices_used = c7state.vertices_used ∧
      t'.faces = c7state.faces ∧
      t'.number_cache = c7state.number_cache ∧
      t'.smooth_grid = c7state.smooth_grid ∧
      t'.manifold = c7target.manifold ∧
      t'.signalConnections = c7target.signalConnections) ∧
    (∀ ms sc, save { c7state with manifold := ms, signalConnections := sc } =
      save c7state) :=
  save_load_roundtrip c7state c7target (by decide) (by decide)

/-- C8: the distorted-cell condition — for `create_triangulation`, the
distorted list is nonempty if and only if distortion checking was enabled at
construction and a created cell has a non-positive Jacobian determinant at
some vertex, while the built triangulation itself is complete and identical
regardless (the condition is surfaced only after the mutating operation has
otherwise completed, as a separate, catchable and ignorable return); and for
`execute_coarsening_and_refinement` — whose newly created cells get their
vertices placed by the attached manifolds, `vmap` — the distorted list is
nonempty if and only if checking is enabled and some newly created child has
a non-positive Jacobian determinant at some vertex. -/
theorem distorted_cell_condition (check : Bool) (verts : List (Int × Int))
    (cells : List RawCell) (s : Nat) (t : QT)
    (vmap : Nat → Nat → Nat → Int × Int) :
    ((create_triangulation check verts cells).2 ≠ [] ↔
      check = true ∧ ∃ c ∈ cells, cellDistorted verts c) ∧
    (create_triangulation check verts cells).1 = ⟨verts, cells⟩ ∧
    (ecr_distorted_cells check s t vmap ≠ [] ↔
      check = true ∧
        ∃ c ∈ flagged_cells (execute_coarsening
            (prepare_coarsening_and_refinement s t)),
          ∃ n ∈ refined_children c, ∃ dt ∈ cell_jacobian_dets vmap n.sq, dt ≤ 0) := by
  refine ⟨?_, rfl, ?_⟩
  · cases check
    · simp [create_triangulation]
    · constructor
      · intro hne
        refine ⟨rfl, ?_⟩
        have hne2 : (List.range cells.length).filter
            (fun i => decide (cellDistorted verts (cells.getD i ⟨0, 0, 0, 0, 0⟩)))
              ≠ [] := hne
        obtain ⟨i, hi⟩ := List.exists_mem_of_ne_nil _ hne2
        have h2 := List.mem_filter.1 hi
        have hlt : i < cells.length := List.mem_range.1 h2.1
        have hp : cellDistorted verts (cells.getD i ⟨0, 0, 0, 0, 0⟩) :=
          of_decide_eq_true h2.2
        refine ⟨cells.getD i ⟨0, 0, 0, 0, 0⟩, ?_, hp⟩
        rw [List.getD_eq_getElem cells _ hlt]
        exact List.getElem_mem hlt
      · rintro ⟨-, c, hc, hdist⟩
        obtain ⟨i, hlt, rfl⟩ := List.mem_iff_getElem.1 hc
        intro hnil
        have hnil2 : (List.range cells.length).filter
            (fun i => decide (cellDistorted verts (cells.getD i ⟨0, 0, 0, 0, 0⟩)))
              = [] := hnil
        rw [List.filter_eq_nil_iff] at hnil2
        refine absurd ?_ (hnil2 i (List.mem_range.2 hlt))
        apply decide_eq_true
        rw [List.getD_eq_getElem cells _ hlt]
        exact hdist
  · cases check
    · constructor
      · intro h
        exact absurd rfl h
      · rintro ⟨h, -⟩
        cases h
    · constructor
      · intro hne
        refine ⟨rfl, ?_⟩
        have hne2 : (flagged_cells (execute_coarsening
            (prepare_coarsening_and_refinement s t))).flatMap
              (fun c => (refined_children c).filterMap fun n =>
                if (cell_jacobian_dets vmap n.sq).any (fun dt => decide (dt ≤ 0)) then
                  some n.sq
                else none) ≠ [] := hne
        obtain ⟨a, ha⟩ := List.exists_mem_of_ne_nil _ hne2
        rcases List.mem_flatMap.1 ha with ⟨c, hcm, hfm⟩
        rcases List.mem_filterMap.1 hfm with ⟨n, hnm, hify⟩
        cases hany : (cell_jacobian_dets vmap n.sq).any (fun dt => decide (dt ≤ 0))
        · rw [if_neg (by rw [hany]; exact Bool.false_ne_true)] at hify
          cases hify
        · rcases List.any_eq_true.1 hany with ⟨dt, hdt, hdt0⟩
          exact ⟨c, hcm, n, hnm, dt, hdt, of_decide_eq_true hdt0⟩
      · rintro ⟨-, c, hcm, n, hnm, dt, hdt, hdt0⟩
        intro hnil
        have hmem : n.sq ∈ (flagged_cells (execute_coarsening
            (prepare_coarsening_and_refinement s t))).flatMap
              (fun c => (refined_children c).filterMap fun n =>
                if (cell_jacobian_dets vmap n.sq).any (fun dt => decide (dt ≤ 0)) then
                  some n.sq
                else none) :=
          List.mem_flatMap.2 ⟨c, hcm, List.mem_filterMap.2 ⟨n, hnm, by
            rw [if_pos (List.any_eq_true.2 ⟨dt, hdt, decide_eq_true hdt0⟩)]⟩⟩
        have hnil2 : (flagged_cells (execute_coarsening
            (prepare_coarsening_and_refinement s t))).flatMap
              (fun c => (refined_children c).filterMap fun n =>
                if (cell_jacobian_dets vmap n.sq).any (fun dt => decide (dt ≤ 0)) then
                  some n.sq
                else none) = [] := hnil
        rw [hnil2] at hmem
        cases hmem

theorem distorted_cell_condition_witness :
    (create_triangulation true [((0 : Int), (0 : Int)), (1, 0), (0, 1), (1, 1)]
        [⟨0, 1, 3, 2, 0⟩]).2 ≠ [] ∧
    ecr_distorted_cells true 0 (leafQ true false) wvmap ≠ [] :=
  ⟨((distorted_cell_condition true [((0 : Int), (0 : Int)), (1, 0), (0, 1), (1, 1)]
      [⟨0, 1, 3, 2, 0⟩] 0 (leafQ true false) wvmap).1).mpr ⟨rfl, by decide⟩,
    ((distorted_cell_condition true [((0 : Int), (0 : Int)), (1, 0), (0, 1), (1, 1)]
      [⟨0, 1, 3, 2, 0⟩] 0 (leafQ true false) wvmap).2.2).mpr ⟨rfl, by decide⟩⟩

theorem one_irregular_invariant_after_ecr_witness :
    face_balanced (execute_coarsening_and_refinement 0 c1mesh) ∧
    vertex_balanced (execute_coarsening_and_refinement
      limit_level_difference_at_vertices c1mesh) :=
  ⟨(one_irregular_invariant_after_ecr 0 c1mesh).1 (by decide),
    (one_irregular_invariant_after_ecr limit_level_difference_at_vertices c1mesh).2
      (by decide) (by decide)⟩

theorem coarsening_all_or_nothing_witness :
    0 < (⟨1, 0, 0, ⟨0, false, true⟩⟩ : ACell).lvl ∧
      ∀ i < 2, ∀ j < 2,
        ∃ m ∈ acells (prepare_coarsening_and_refinement 0 c4mesh),
          m.sq = Sq.child ⟨(⟨1, 0, 0, ⟨0, false, true⟩⟩ : ACell).lvl - 1,
            (⟨1, 0, 0, ⟨0, false, true⟩⟩ : ACell).x / 2,
            (⟨1, 0, 0, ⟨0, false, true⟩⟩ : ACell).y / 2⟩ i j ∧
            m.info.coarsenFlag = true ∧ m.info.refineFlag = false :=
  coarsening_all_or_nothing.1 0 c4mesh ⟨1, 0, 0, ⟨0, false, true⟩⟩ (by decide)
    (by decide)

theorem prepare_never_invents_coarsen_flags_witness :
    ∃ c₀ ∈ acells c4mesh, c₀.sq = (⟨1, 0, 0, ⟨0, false, true⟩⟩ : ACell).sq ∧
      c₀.info.coarsenFlag = true :=
  prepare_never_invents_coarsen_flags 0 c4mesh (by decide)
    ⟨1, 0, 0, ⟨0, false, true⟩⟩ (by decide) (by decide)

theorem ecr_noop_when_unflagged_witness : ecr_mesh 0 hyper_cube = hyper_cube :=
  ecr_noop_when_unflagged 0 hyper_cube (by decide) (by decide) (by decide)
